import Mathlib

/-!
Verification of the BloodHound attack-path post-processing engine
(packages/go/analysis/ad) against its natural-language specification.

The Go sources are shallowly embedded:

* graph nodes are reduced to the data the analysed functions inspect
  (an id, the Group/LocalGroup kind flag, optional property values);
* `cardinality.Duplex[uint64]` bitmaps become `Finset ℕ` with bitmap
  iteration (`Each`) modelled as iteration over the ascending sort;
* graph-transaction queries become explicit parameters holding the rows
  the query would return;
* the path aggregator consulted by `CalculateCrossProductNodeSets`
  becomes a function `ℕ → Finset ℕ` (group id to expansion set).
-/

namespace BloodHound

/-- A graph node as seen by `CalculateCrossProductNodeSets`
(ad.go): just its id and whether its kinds contain one of
`ad.Group`, `ad.LocalGroup`. -/
structure SimpleNode where
  id : Nat
  isGroup : Bool
deriving DecidableEq, Repr

/-- First-degree set of a node slice: the ids of its members
(`firstDegreeSet.Add(entityID)` in ad.go). -/
def firstDegree : List SimpleNode → Finset Nat
  | [] => ∅
  | n :: rest => insert n.id (firstDegree rest)

/-- Unrolled set of a node slice: every member id plus, for
Group/LocalGroup members, the member's expansion from the path
aggregator (`unrolledSet.Add` / `unrolledSet.Or(groupExpansions.Cardinality(...))`
in ad.go). -/
def unrollSlice (exp : Nat → Finset Nat) : List SimpleNode → Finset Nat
  | [] => ∅
  | n :: rest =>
      insert n.id ((if n.isGroup then exp n.id else ∅) ∪ unrollSlice exp rest)

/-- Whether an unrolled set contains one of the special groups
(Authenticated Users / Everyone), mirroring the `hasSpecialGroup`
loop of `CalculateCrossProductNodeSets`. -/
def hasSpecialGroup (specialGroups : List Nat) (unrolled : Finset Nat) : Bool :=
  specialGroups.any (fun g => g ∈ unrolled)

/-- Symmetric difference on `Finset ℕ`, the effect of
`cardinality.Duplex.Xor`. -/
def symmDiffFin (s t : Finset Nat) : Finset Nat := (s \ t) ∪ (t \ s)

/-- Ascending enumeration of a `Finset ℕ`; Roaring bitmap iteration
(`Duplex.Each`, `Duplex.Slice`) yields values in ascending order. -/
def ascList (s : Finset Nat) : List Nat :=
  (List.range (s.sup id + 1)).filter (fun x => x ∈ s)

theorem mem_ascList {s : Finset Nat} {x : Nat} : x ∈ ascList s ↔ x ∈ s := by
  simp only [ascList, List.mem_filter, List.mem_range, decide_eq_true_eq]
  exact ⟨fun h => h.2, fun h => ⟨Nat.lt_succ_of_le (Finset.le_sup (f := id) h), h⟩⟩

/-- The first pass of `CalculateCrossProductNodeSets`: iterate the
reference slice's first-degree principals in ascending id order
(`firstDegreeSets[0].Each`); members of the check set go straight into
the result, all others contribute their expansion to the reference
set (`unrolledRefSet.Or(groupExpansions.Cardinality(id))`).
Returns `(resultEntities, unrolledRefSet)`. -/
def firstPass (exp : Nat → Finset Nat) (checkSet fd0 : Finset Nat) :
    Finset Nat × Finset Nat :=
  (ascList fd0).foldl
    (fun st idv =>
      if idv ∈ checkSet then (insert idv st.1, st.2) else (st.1, st.2 ∪ exp idv))
    (∅, ∅)

/-- Insert a group id into a list kept ascending by expansion
cardinality; equal cardinalities keep the existing order (a stable
refinement of Go's `sort.Slice`, whose tie order is unspecified). -/
def insertByCard (exp : Nat → Finset Nat) (x : Nat) : List Nat → List Nat
  | [] => [x]
  | y :: rest =>
      if (exp y).card ≤ (exp x).card then y :: insertByCard exp x rest
      else x :: y :: rest

/-- Sort group ids ascending by expansion cardinality (the
`sort.Slice(keys, ...)` step of `CalculateCrossProductNodeSets`). -/
def sortByCard (exp : Nat → Finset Nat) : List Nat → List Nat
  | [] => []
  | x :: rest => insertByCard exp x (sortByCard exp rest)

/-- The greedy fold of `CalculateCrossProductNodeSets` over the sorted
group keys: a key already removed from the reference set is skipped; a
key in the check set is added to the result, removed, and its
expansion Xor'ed into the reference set; any other key is just
removed.  State is `(resultEntities, unrolledRefSet)`. -/
def greedyLoop (exp : Nat → Finset Nat) (checkSet : Finset Nat) :
    List Nat → Finset Nat × Finset Nat → Finset Nat × Finset Nat
  | [], st => st
  | gid :: rest, st =>
      if gid ∈ st.2 then
        if gid ∈ checkSet then
          greedyLoop exp checkSet rest
            (insert gid st.1, symmDiffFin (st.2.erase gid) (exp gid))
        else
          greedyLoop exp checkSet rest (st.1, st.2.erase gid)
      else greedyLoop exp checkSet rest st

/-- The ≥ 2 sentinel-free-slices branch of
`CalculateCrossProductNodeSets`, given the check set (intersection of
the non-reference unrolled sets) and the reference slice's
first-degree set. -/
def crossCore (exp : Nat → Finset Nat) (checkSet fd0 : Finset Nat) : Finset Nat :=
  let st0 := firstPass exp checkSet fd0
  let keys := sortByCard exp
    ((ascList st0.2).filter (fun idv => 0 < (exp idv).card))
  let st1 := greedyLoop exp checkSet keys st0
  st1.1 ∪ st1.2.filter (fun r => r ∈ checkSet)

/-- Union of the first-degree ids of every slice (the
all-slices-have-a-sentinel fallback of `CalculateCrossProductNodeSets`). -/
def allFirstDegree : List (List SimpleNode) → Finset Nat
  | [] => ∅
  | s :: rest => firstDegree s ∪ allFirstDegree rest

/-- Shallow embedding of `CalculateCrossProductNodeSets`
(ad.go lines 401-546).  `specialGroups` holds the ids returned by
`FetchAuthUsersAndEveryoneGroups` for the transaction, `exp` is
`groupExpansions.Cardinality`, and `nodeSlices` the variadic node
slices. -/
def calcCrossProductNodeSets (specialGroups : List Nat)
    (exp : Nat → Finset Nat) (nodeSlices : List (List SimpleNode)) : Finset Nat :=
  if nodeSlices.length < 2 then ∅
  else
    let kept := nodeSlices.filter
      (fun s => ! hasSpecialGroup specialGroups (unrollSlice exp s))
    match kept with
    | [] => allFirstDegree nodeSlices
    | [s] => firstDegree s
    | s0 :: s1 :: restKept =>
        crossCore exp
          (restKept.foldl (fun acc s => acc ∩ unrollSlice exp s)
            (unrollSlice exp s1))
          (firstDegree s0)

/-! ### Basic membership lemmas for the cross-product embedding -/

theorem mem_firstDegree {x : Nat} : ∀ {l : List SimpleNode},
    x ∈ firstDegree l ↔ ∃ n ∈ l, x = n.id
  | [] => by simp [firstDegree]
  | n :: rest => by
      simp [firstDegree, mem_firstDegree (l := rest)]

theorem mem_unrollSlice {exp : Nat → Finset Nat} {x : Nat} :
    ∀ {l : List SimpleNode},
      x ∈ unrollSlice exp l ↔
        ∃ n ∈ l, x = n.id ∨ (n.isGroup = true ∧ x ∈ exp n.id)
  | [] => by simp [unrollSlice]
  | n :: rest => by
      by_cases hg : n.isGroup <;>
        simp [unrollSlice, hg, mem_unrollSlice (l := rest), or_assoc]

theorem firstDegree_subset_unrollSlice {exp : Nat → Finset Nat}
    {l : List SimpleNode} : firstDegree l ⊆ unrollSlice exp l := by
  intro x hx
  rcases mem_firstDegree.1 hx with ⟨n, hn, hid⟩
  exact mem_unrollSlice.2 ⟨n, hn, Or.inl hid⟩

theorem mem_allFirstDegree {x : Nat} : ∀ {l : List (List SimpleNode)},
    x ∈ allFirstDegree l ↔ ∃ s ∈ l, x ∈ firstDegree s
  | [] => by simp [allFirstDegree]
  | s :: rest => by simp [allFirstDegree, mem_allFirstDegree (l := rest)]

/-! ### Claim C10: fewer than two node slices -/

/-- C10: for every call to `CalculateCrossProductNodeSets` with fewer
than two node slices the function returns an empty Reachability Set,
whatever the single slice or the aggregator contain.  (The embedding
is a total function, mirroring that the Go code neither panics nor
returns an error on this path: it logs and returns a fresh bitmap.) -/
theorem calcCrossProduct_fewerThanTwoSlices_empty
    (specialGroups : List Nat) (exp : Nat → Finset Nat)
    (nodeSlices : List (List SimpleNode))
    (h : nodeSlices.length < 2) :
    calcCrossProductNodeSets specialGroups exp nodeSlices = ∅ := by
  simp [calcCrossProductNodeSets, h]

/-- C10 witness: a one-slice call (with arbitrary content and a
nontrivial aggregator) returns the empty set. -/
theorem calcCrossProduct_fewerThanTwoSlices_empty_witness :
    calcCrossProductNodeSets [100] (fun n => if n = 2 then {1, 3} else ∅)
      [[⟨2, true⟩, ⟨1, false⟩]] = ∅ :=
  calcCrossProduct_fewerThanTwoSlices_empty _ _ _ (by decide)

/-! ### Claim C2: sentinel-dominated branches -/

/-- C2: with at least two slices, (a) if every slice's unrolled set
contains a sentinel group, the result is the union of all slices'
first-degree ids; (b) if exactly one slice's unrolled set is
sentinel-free, the result is that slice's first-degree set. -/
theorem calcCrossProduct_sentinel_branches
    (specialGroups : List Nat) (exp : Nat → Finset Nat)
    (nodeSlices : List (List SimpleNode))
    (h2 : 2 ≤ nodeSlices.length) :
    ((∀ s ∈ nodeSlices,
        hasSpecialGroup specialGroups (unrollSlice exp s) = true) →
      calcCrossProductNodeSets specialGroups exp nodeSlices =
        allFirstDegree nodeSlices) ∧
    (∀ l₁ s l₂, nodeSlices = l₁ ++ s :: l₂ →
      hasSpecialGroup specialGroups (unrollSlice exp s) = false →
      (∀ t ∈ l₁, hasSpecialGroup specialGroups (unrollSlice exp t) = true) →
      (∀ t ∈ l₂, hasSpecialGroup specialGroups (unrollSlice exp t) = true) →
      calcCrossProductNodeSets specialGroups exp nodeSlices = firstDegree s) := by
  constructor
  · intro hall
    have hk : nodeSlices.filter
        (fun s => ! hasSpecialGroup specialGroups (unrollSlice exp s)) = [] := by
      simp only [List.filter_eq_nil_iff]
      intro a ha
      simp [hall a ha]
    simp [calcCrossProductNodeSets, Nat.not_lt.2 h2, hk]
  · intro l₁ s l₂ hsplit hs hl₁ hl₂
    have hk : nodeSlices.filter
        (fun t => ! hasSpecialGroup specialGroups (unrollSlice exp t)) = [s] := by
      subst hsplit
      rw [List.filter_append]
      have h₁ : l₁.filter
          (fun t => ! hasSpecialGroup specialGroups (unrollSlice exp t)) = [] := by
        simp only [List.filter_eq_nil_iff]
        intro a ha
        simp [hl₁ a ha]
      have h₂ : l₂.filter
          (fun t => ! hasSpecialGroup specialGroups (unrollSlice exp t)) = [] := by
        simp only [List.filter_eq_nil_iff]
        intro a ha
        simp [hl₂ a ha]
      simp [h₁, h₂, List.filter_cons, hs]
    simp [calcCrossProductNodeSets, Nat.not_lt.2 h2, hk]

/-- C2 witness: part (a) at two slices both holding the sentinel group
50 (result: union of first-degree ids), part (b) at a sentinel-free
slice `{1}` next to a sentinel slice (result: the free slice's
first-degree set). -/
theorem calcCrossProduct_sentinel_branches_witness :
    calcCrossProductNodeSets [50] (fun n => if n = 50 then {1, 2, 3} else ∅)
        [[⟨50, true⟩], [⟨50, true⟩]] =
      allFirstDegree [[⟨50, true⟩], [⟨50, true⟩]] ∧
    calcCrossProductNodeSets [50] (fun n => if n = 50 then {1, 2, 3} else ∅)
        [[⟨1, false⟩], [⟨50, true⟩]] = firstDegree [⟨1, false⟩] :=
  ⟨(calcCrossProduct_sentinel_branches _ _ _ (by decide)).1 (by decide),
   (calcCrossProduct_sentinel_branches _ _ _ (by decide)).2
      [] [⟨1, false⟩] [[⟨50, true⟩]] rfl (by decide) (by decide) (by decide)⟩

/-! ### Claim C1: the ≥ 2 sentinel-free-slices branch -/

/-- Aggregator for the C1 counterexample: group 5 expands to `{9}`,
group 7 expands to `{5, 9}` (so 9 is a member of 5, and both are
members of 7), transitively closed. -/
def cexAggregator : Nat → Finset Nat :=
  fun n => if n = 5 then {9} else if n = 7 then {5, 9} else ∅

/-- C1 counterexample: with slices `[{group 5}]` and `[{group 7}]`
(both sentinel-free), principal 9 sits in every sentinel-free slice's
unrolled set, yet `CalculateCrossProductNodeSets` does not return it:
once group 5 is confirmed to sit in the intersection, the greedy fold
removes 5's membership from the candidate set, so the result is `{5}`
rather than the full intersection `{5, 9}`. -/
theorem calcCrossProduct_not_exact_intersection :
    (∀ s ∈ [[(⟨5, true⟩ : SimpleNode)], [⟨7, true⟩]],
        hasSpecialGroup [100] (unrollSlice cexAggregator s) = false) ∧
    (∀ s ∈ [[(⟨5, true⟩ : SimpleNode)], [⟨7, true⟩]],
        9 ∈ unrollSlice cexAggregator s) ∧
    9 ∉ calcCrossProductNodeSets [100] cexAggregator
        [[⟨5, true⟩], [⟨7, true⟩]] := by decide

theorem mem_foldl_inter {exp : Nat → Finset Nat} {x : Nat} :
    ∀ {l : List (List SimpleNode)} {init : Finset Nat},
      (x ∈ l.foldl (fun acc s => acc ∩ unrollSlice exp s) init ↔
        x ∈ init ∧ ∀ s ∈ l, x ∈ unrollSlice exp s)
  | [], init => by simp
  | s :: rest, init => by
      rw [List.foldl_cons, mem_foldl_inter (l := rest)]
      simp only [Finset.mem_inter, List.mem_cons]
      constructor
      · rintro ⟨⟨h1, h2⟩, h3⟩
        exact ⟨h1, fun t ht => by rcases ht with rfl | ht; exacts [h2, h3 t ht]⟩
      · rintro ⟨h1, h2⟩
        exact ⟨⟨h1, h2 s (Or.inl rfl)⟩, fun t ht => h2 t (Or.inr ht)⟩

theorem firstPass_aux (exp : Nat → Finset Nat) (c : Finset Nat) (x : Nat) :
    ∀ (l : List Nat) (st : Finset Nat × Finset Nat),
      (x ∈ (l.foldl (fun st idv =>
          if idv ∈ c then (insert idv st.1, st.2)
          else (st.1, st.2 ∪ exp idv)) st).1 ↔
        x ∈ st.1 ∨ ∃ m ∈ l, m ∈ c ∧ x = m) ∧
      (x ∈ (l.foldl (fun st idv =>
          if idv ∈ c then (insert idv st.1, st.2)
          else (st.1, st.2 ∪ exp idv)) st).2 ↔
        x ∈ st.2 ∨ ∃ m ∈ l, m ∉ c ∧ x ∈ exp m)
  | [], st => by simp
  | m :: rest, st => by
      rcases firstPass_aux exp c x rest
        (if m ∈ c then (insert m st.1, st.2) else (st.1, st.2 ∪ exp m)) with
        ⟨ih1, ih2⟩
      rw [List.foldl_cons]
      by_cases hm : m ∈ c
      · rw [if_pos hm] at ih1 ih2 ⊢
        constructor
        · rw [ih1]
          simp only [Finset.mem_insert, List.mem_cons]
          aesop
        · rw [ih2]
          simp only [List.mem_cons]
          aesop
      · rw [if_neg hm] at ih1 ih2 ⊢
        constructor
        · rw [ih1]
          simp only [List.mem_cons]
          aesop
        · rw [ih2]
          simp only [List.mem_cons, Finset.mem_union]
          aesop


theorem firstPass_fst {exp : Nat → Finset Nat} {c fd : Finset Nat} {x : Nat} :
    x ∈ (firstPass exp c fd).1 ↔ x ∈ fd ∧ x ∈ c := by
  rw [firstPass, (firstPass_aux exp c x _ _).1]
  simp only [Finset.not_mem_empty, false_or]
  constructor
  · rintro ⟨m, hm, hmc, rfl⟩; exact ⟨mem_ascList.1 hm, hmc⟩
  · rintro ⟨h1, h2⟩; exact ⟨x, mem_ascList.2 h1, h2, rfl⟩

theorem firstPass_snd {exp : Nat → Finset Nat} {c fd : Finset Nat} {x : Nat} :
    x ∈ (firstPass exp c fd).2 ↔ ∃ m ∈ fd, m ∉ c ∧ x ∈ exp m := by
  rw [firstPass, (firstPass_aux exp c x _ _).2]
  simp only [Finset.not_mem_empty, false_or]
  constructor
  · rintro ⟨m, hm, hmc, hxm⟩; exact ⟨m, mem_ascList.1 hm, hmc, hxm⟩
  · rintro ⟨m, hm, hmc, hxm⟩; exact ⟨m, mem_ascList.2 hm, hmc, hxm⟩


theorem greedyLoop_mono_fst {exp : Nat → Finset Nat} {c : Finset Nat} {x : Nat} :
    ∀ {keys : List Nat} {st : Finset Nat × Finset Nat},
      x ∈ st.1 → x ∈ (greedyLoop exp c keys st).1
  | [], _, h => h
  | gid :: rest, st, h => by
      rw [greedyLoop]
      split
      · split
        · exact greedyLoop_mono_fst (Finset.mem_insert_of_mem h)
        · exact greedyLoop_mono_fst h
      · exact greedyLoop_mono_fst h

theorem greedyLoop_sound {exp : Nat → Finset Nat} {c B W : Finset Nat}
    (hB : ∀ g ∈ B, exp g ⊆ B) (hBW : B ⊆ W) :
    ∀ {keys : List Nat} {st : Finset Nat × Finset Nat},
      (∀ x ∈ st.1, x ∈ c ∧ x ∈ W) → st.2 ⊆ B →
      (∀ x ∈ (greedyLoop exp c keys st).1, x ∈ c ∧ x ∈ W) ∧
        (greedyLoop exp c keys st).2 ⊆ B
  | [], _, h1, h2 => ⟨h1, h2⟩
  | gid :: rest, st, h1, h2 => by
      rw [greedyLoop]
      split
      · rename_i hgin
        split
        · rename_i hgc
          refine greedyLoop_sound hB hBW ?_ ?_
          · intro x hx
            rcases Finset.mem_insert.1 hx with rfl | hx
            · exact ⟨hgc, hBW (h2 hgin)⟩
            · exact h1 x hx
          · intro x hx
            rcases Finset.mem_union.1 hx with hx | hx
            · exact h2 (Finset.mem_of_mem_erase (Finset.mem_sdiff.1 hx).1)
            · exact hB gid (h2 hgin) (Finset.mem_sdiff.1 hx).1
        · exact greedyLoop_sound hB hBW h1
            (fun x hx => h2 (Finset.mem_of_mem_erase hx))
      · exact greedyLoop_sound hB hBW h1 h2

theorem greedyLoop_cover {exp : Nat → Finset Nat} {c : Finset Nat} {x : Nat}
    (hx : x ∈ c) :
    ∀ {keys : List Nat} {st : Finset Nat × Finset Nat},
      (x ∈ st.1 ∨ (∃ g ∈ st.1, x ∈ exp g) ∨ x ∈ st.2) →
      (x ∈ (greedyLoop exp c keys st).1 ∨
        (∃ g ∈ (greedyLoop exp c keys st).1, x ∈ exp g) ∨
        x ∈ (greedyLoop exp c keys st).2)
  | [], _, h => h
  | gid :: rest, st, h => by
      rw [greedyLoop]
      split
      · rename_i hgin
        split
        · rename_i hgc
          refine greedyLoop_cover hx ?_
          rcases h with h | ⟨g, hg, hge⟩ | h
          · exact Or.inl (Finset.mem_insert_of_mem h)
          · exact Or.inr (Or.inl ⟨g, Finset.mem_insert_of_mem hg, hge⟩)
          · by_cases hxg : x = gid
            · exact Or.inl (hxg ▸ Finset.mem_insert_self _ _)
            · by_cases hxe : x ∈ exp gid
              · exact Or.inr (Or.inl ⟨gid, Finset.mem_insert_self _ _, hxe⟩)
              · exact Or.inr (Or.inr (Finset.mem_union_left _
                  (Finset.mem_sdiff.2 ⟨Finset.mem_erase.2 ⟨hxg, h⟩, hxe⟩)))
        · rename_i hgc
          refine greedyLoop_cover hx ?_
          rcases h with h | ⟨g, hg, hge⟩ | h
          · exact Or.inl h
          · exact Or.inr (Or.inl ⟨g, hg, hge⟩)
          · rcases eq_or_ne x gid with rfl | hxg
            · exact absurd hx hgc
            · exact Or.inr (Or.inr (Finset.mem_erase.2 ⟨hxg, h⟩))
      · exact greedyLoop_cover hx h

theorem crossCore_sound {exp : Nat → Finset Nat} {c fd0 : Finset Nat}
    (htrans : ∀ g x, x ∈ exp g → exp x ⊆ exp g) :
    ∀ x ∈ crossCore exp c fd0,
      x ∈ c ∧ (x ∈ fd0 ∨ ∃ m ∈ fd0, x ∈ exp m) := by
  intro x hx
  have hB : ∀ g ∈ fd0.biUnion exp, exp g ⊆ fd0.biUnion exp := by
    intro g hg y hy
    rcases Finset.mem_biUnion.1 hg with ⟨m, hm, hgm⟩
    exact Finset.mem_biUnion.2 ⟨m, hm, htrans m g hgm hy⟩
  have hBW : fd0.biUnion exp ⊆ fd0 ∪ fd0.biUnion exp :=
    Finset.subset_union_right
  have h1 : ∀ y ∈ (firstPass exp c fd0).1, y ∈ c ∧ y ∈ fd0 ∪ fd0.biUnion exp := by
    intro y hy
    rcases firstPass_fst.1 hy with ⟨hy1, hy2⟩
    exact ⟨hy2, Finset.mem_union_left _ hy1⟩
  have h2 : (firstPass exp c fd0).2 ⊆ fd0.biUnion exp := by
    intro y hy
    rcases firstPass_snd.1 hy with ⟨m, hm, _, hym⟩
    exact Finset.mem_biUnion.2 ⟨m, hm, hym⟩
  rcases Finset.mem_union.1 hx with hx | hx
  · rcases (greedyLoop_sound hB hBW h1 h2).1 x hx with ⟨hc, hw⟩
    refine ⟨hc, ?_⟩
    rcases Finset.mem_union.1 hw with hw | hw
    · exact Or.inl hw
    · rcases Finset.mem_biUnion.1 hw with ⟨m, hm, hxm⟩
      exact Or.inr ⟨m, hm, hxm⟩
  · rcases Finset.mem_filter.1 hx with ⟨hx2, hxc⟩
    have := (greedyLoop_sound hB hBW h1 h2).2 hx2
    rcases Finset.mem_biUnion.1 this with ⟨m, hm, hxm⟩
    exact ⟨hxc, Or.inr ⟨m, hm, hxm⟩⟩

theorem crossCore_cover {exp : Nat → Finset Nat} {c fd0 : Finset Nat} {x : Nat}
    (hxc : x ∈ c) (hx0 : x ∈ fd0 ∨ ∃ m ∈ fd0, x ∈ exp m) :
    x ∈ crossCore exp c fd0 ∨ ∃ g ∈ crossCore exp c fd0, x ∈ exp g := by
  have hinit : x ∈ (firstPass exp c fd0).1 ∨
      (∃ g ∈ (firstPass exp c fd0).1, x ∈ exp g) ∨
      x ∈ (firstPass exp c fd0).2 := by
    rcases hx0 with hx0 | ⟨m, hm, hxm⟩
    · exact Or.inl (firstPass_fst.2 ⟨hx0, hxc⟩)
    · by_cases hmc : m ∈ c
      · exact Or.inr (Or.inl ⟨m, firstPass_fst.2 ⟨hm, hmc⟩, hxm⟩)
      · exact Or.inr (Or.inr (firstPass_snd.2 ⟨m, hm, hmc, hxm⟩))
  rcases greedyLoop_cover hxc hinit with h | ⟨g, hg, hge⟩ | h
  · exact Or.inl (Finset.mem_union_left _ h)
  · exact Or.inr ⟨g, Finset.mem_union_left _ hg, hge⟩
  · exact Or.inl (Finset.mem_union_right _ (Finset.mem_filter.2 ⟨h, hxc⟩))

/-- C1 (amended): in the ≥ 2 sentinel-free-slices case, for a path
aggregator that is transitively closed and maps only group members to
nonempty expansions, `CalculateCrossProductNodeSets` returns a tight
cover of the intersection of the sentinel-free unrolled sets: every
returned principal sits in every sentinel-free slice's unrolled set,
and every principal sitting in all of them is either returned or a
transitive member of a returned group (the greedy fold deliberately
returns a matched group instead of re-listing its members).  In
particular, for slice one = {GroupG containing UserX, UserY} and slice
two = {UserX}, the result is exactly {UserX}. -/
theorem calcCrossProduct_tight_cover :
    (∀ (sg : List Nat) (exp : Nat → Finset Nat)
       (slices : List (List SimpleNode))
       (s0 s1 : List SimpleNode) (rest : List (List SimpleNode)),
       (∀ g x, x ∈ exp g → exp x ⊆ exp g) →
       (∀ s ∈ slices, ∀ n ∈ s, n.isGroup = false → exp n.id = ∅) →
       slices.filter
           (fun s => ! hasSpecialGroup sg (unrollSlice exp s)) =
         s0 :: s1 :: rest →
       (∀ x ∈ calcCrossProductNodeSets sg exp slices, ∀ s ∈ slices,
           hasSpecialGroup sg (unrollSlice exp s) = false →
           x ∈ unrollSlice exp s) ∧
       (∀ x, (∀ s ∈ slices,
             hasSpecialGroup sg (unrollSlice exp s) = false →
             x ∈ unrollSlice exp s) →
           x ∈ calcCrossProductNodeSets sg exp slices ∨
           ∃ g ∈ calcCrossProductNodeSets sg exp slices, x ∈ exp g)) ∧
    calcCrossProductNodeSets [100] (fun n => if n = 2 then {1, 3} else ∅)
        [[⟨2, true⟩], [⟨1, false⟩]] = {1} := by
  constructor
  · intro sg exp slices s0 s1 rest htrans hgroups hk
    have hlen : ¬ slices.length < 2 := by
      have := List.length_filter_le
        (fun s => ! hasSpecialGroup sg (unrollSlice exp s)) slices
      rw [hk] at this
      simp only [List.length_cons] at this
      omega
    have hcalc : calcCrossProductNodeSets sg exp slices =
        crossCore exp
          (rest.foldl (fun acc s => acc ∩ unrollSlice exp s)
            (unrollSlice exp s1))
          (firstDegree s0) := by
      simp only [calcCrossProductNodeSets, hlen, if_false, hk]
    have hkept : ∀ s, (s ∈ slices ∧
        hasSpecialGroup sg (unrollSlice exp s) = false) ↔
        (s = s0 ∨ s = s1 ∨ s ∈ rest) := by
      intro s
      constructor
      · rintro ⟨hs, hfree⟩
        have : s ∈ s0 :: s1 :: rest := by
          rw [← hk]
          exact List.mem_filter.2 ⟨hs, by simp [hfree]⟩
        simpa using this
      · intro hs
        have : s ∈ s0 :: s1 :: rest := by simpa using hs
        rw [← hk] at this
        rcases List.mem_filter.1 this with ⟨h1, h2⟩
        simp only [Bool.not_eq_true'] at h2
        exact ⟨h1, h2⟩
    have hunroll0 : ∀ x, (x ∈ firstDegree s0 ∨
        ∃ m ∈ firstDegree s0, x ∈ exp m) ↔ x ∈ unrollSlice exp s0 := by
      intro x
      constructor
      · rintro (hx | ⟨m, hm, hxm⟩)
        · exact firstDegree_subset_unrollSlice hx
        · rcases mem_firstDegree.1 hm with ⟨n, hn, rfl⟩
          have hng : n.isGroup = true := by
            by_contra hng
            have := hgroups s0 ((hkept s0).2 (Or.inl rfl)).1 n hn
              (Bool.not_eq_true _ ▸ hng)
            rw [this] at hxm
            exact absurd hxm (Finset.not_mem_empty x)
          exact mem_unrollSlice.2 ⟨n, hn, Or.inr ⟨hng, hxm⟩⟩
      · intro hx
        rcases mem_unrollSlice.1 hx with ⟨n, hn, rfl | ⟨hng, hxm⟩⟩
        · exact Or.inl (mem_firstDegree.2 ⟨n, hn, rfl⟩)
        · exact Or.inr ⟨n.id, mem_firstDegree.2 ⟨n, hn, rfl⟩, hxm⟩
    constructor
    · intro x hx s hs hfree
      rw [hcalc] at hx
      rcases crossCore_sound htrans x hx with ⟨hxc, hx0⟩
      rcases mem_foldl_inter.1 hxc with ⟨hx1, hxrest⟩
      rcases (hkept s).1 ⟨hs, hfree⟩ with rfl | rfl | hsr
      · exact (hunroll0 x).1 hx0
      · exact hx1
      · exact hxrest s hsr
    · intro x hx
      have hx0 : x ∈ unrollSlice exp s0 := by
        have h := (hkept s0).2 (Or.inl rfl)
        exact hx s0 h.1 h.2
      have hx1 : x ∈ unrollSlice exp s1 := by
        have h := (hkept s1).2 (Or.inr (Or.inl rfl))
        exact hx s1 h.1 h.2
      have hxrest : ∀ s ∈ rest, x ∈ unrollSlice exp s := by
        intro s hs
        have h := (hkept s).2 (Or.inr (Or.inr hs))
        exact hx s h.1 h.2
      have hxc : x ∈ rest.foldl (fun acc s => acc ∩ unrollSlice exp s)
          (unrollSlice exp s1) := mem_foldl_inter.2 ⟨hx1, hxrest⟩
      rw [hcalc]
      exact crossCore_cover hxc ((hunroll0 x).2 hx0)
  · decide

/-! ### Claim C3: ESC1 template validity (esc1.go) -/

/-- The certificate-template properties read by
`isCertTemplateValidForEsc1` and by the template clause of
`ADCSESC1Path1Pattern`.  A `none` field is a property whose
`Properties.Get(...).Bool()/Float64()` call returns an error (missing
or mistyped).  The numeric properties are `float64` in Go; they are
embedded as `ℚ`, which models every value the comparisons `> 1`,
`> 0`, `= 0`, `= 1` distinguish on real collected data (no arithmetic
is performed on them). -/
structure CertTemplateProps where
  requiresManagerApproval : Option Bool
  authenticationEnabled : Option Bool
  enrolleeSuppliesSubject : Option Bool
  schemaVersion : Option ℚ
  authorizedSignatures : Option ℚ
deriving DecidableEq

/-- Shallow embedding of `isCertTemplateValidForEsc1` (esc1.go lines
67-89): `none` is the `(false, err)` return, `some b` the `(b, nil)`
return. -/
def isCertTemplateValidForEsc1 (ct : CertTemplateProps) : Option Bool :=
  match ct.requiresManagerApproval with
  | none => none
  | some true => some false
  | some false =>
    match ct.authenticationEnabled with
    | none => none
    | some false => some false
    | some true =>
      match ct.enrolleeSuppliesSubject with
      | none => none
      | some false => some false
      | some true =>
        match ct.schemaVersion with
        | none => none
        | some sv =>
          match ct.authorizedSignatures with
          | none => none
          | some sigs => if 1 < sv ∧ 0 < sigs then some false else some true

/-- The certificate-template clause of `ADCSESC1Path1Pattern`
(esc1.go lines 96-114): the `query.Or` of the two property `query.And`
filters on the traversal's end node (a property-equality or comparison
filter fails when the property is absent). -/
def adcsESC1Path1TemplateClause (ct : CertTemplateProps) : Prop :=
  (ct.requiresManagerApproval = some false ∧
    (match ct.schemaVersion with | some sv => 1 < sv | none => False) ∧
    ct.authorizedSignatures = some 0 ∧
    ct.authenticationEnabled = some true ∧
    ct.enrolleeSuppliesSubject = some true) ∨
  (ct.requiresManagerApproval = some false ∧
    ct.schemaVersion = some 1 ∧
    ct.authenticationEnabled = some true ∧
    ct.enrolleeSuppliesSubject = some true)

/-- Template accepted by the code but outside the claim's predicate:
schema-version 2 with authorized-signatures -1. -/
def esc1BoundaryTemplate : CertTemplateProps :=
  ⟨some false, some true, some true, some 2, some (-1)⟩

/-- C3 counterexample: `isCertTemplateValidForEsc1` accepts a template
whose schema-version is 2 and authorized-signature count is -1,
although the claimed predicate requires schema-version ≤ 1 or
(schema-version > 1 with **zero** authorized signatures); the code
only rejects a **positive** signature count. -/
theorem esc1Validity_not_claim_predicate :
    isCertTemplateValidForEsc1 esc1BoundaryTemplate = some true ∧
    esc1BoundaryTemplate.requiresManagerApproval = some false ∧
    esc1BoundaryTemplate.authenticationEnabled = some true ∧
    esc1BoundaryTemplate.enrolleeSuppliesSubject = some true ∧
    esc1BoundaryTemplate.schemaVersion = some 2 ∧
    esc1BoundaryTemplate.authorizedSignatures = some (-1) ∧
    ¬ ((2 : ℚ) ≤ 1 ∨ (1 < (2 : ℚ) ∧ (-1 : ℚ) = 0)) := by
  refine ⟨rfl, rfl, rfl, rfl, rfl, rfl, ?_⟩
  rintro (h | ⟨-, h⟩) <;> norm_num at h

/-- C3 (amended): `isCertTemplateValidForEsc1` accepts a template iff
all five properties are readable, manager approval is disabled,
authentication is enabled, enrollee-supplies-subject is enabled, and
schema-version ≤ 1 or authorized-signatures ≤ 0 (no positive
signature count); and the `ADCSESC1Path1Pattern` template clause, on
any template whose authorized-signature property is readable, only
matches templates satisfying this predicate (the clause is strictly
narrower: schema-version exactly 1, or schema-version > 1 with
authorized-signatures exactly 0). -/
theorem esc1Validity_characterization :
    (∀ ct : CertTemplateProps,
      isCertTemplateValidForEsc1 ct = some true ↔
        (ct.requiresManagerApproval = some false ∧
          ct.authenticationEnabled = some true ∧
          ct.enrolleeSuppliesSubject = some true ∧
          ∃ sv sigs, ct.schemaVersion = some sv ∧
            ct.authorizedSignatures = some sigs ∧ (sv ≤ 1 ∨ sigs ≤ 0))) ∧
    (∀ (ct : CertTemplateProps) (sigs : ℚ),
      ct.authorizedSignatures = some sigs →
      adcsESC1Path1TemplateClause ct →
        isCertTemplateValidForEsc1 ct = some true) := by
  have hchar : ∀ ct : CertTemplateProps,
      isCertTemplateValidForEsc1 ct = some true ↔
        (ct.requiresManagerApproval = some false ∧
          ct.authenticationEnabled = some true ∧
          ct.enrolleeSuppliesSubject = some true ∧
          ∃ sv sigs, ct.schemaVersion = some sv ∧
            ct.authorizedSignatures = some sigs ∧ (sv ≤ 1 ∨ sigs ≤ 0)) := by
    rintro ⟨rma, ae, ess, svo, sigso⟩
    cases rma with
    | none => simp [isCertTemplateValidForEsc1]
    | some b =>
      cases b
      case true => simp [isCertTemplateValidForEsc1]
      case false =>
      cases ae with
      | none => simp [isCertTemplateValidForEsc1]
      | some b2 =>
        cases b2
        case false => simp [isCertTemplateValidForEsc1]
        case true =>
        cases ess with
        | none => simp [isCertTemplateValidForEsc1]
        | some b3 =>
          cases b3
          case false => simp [isCertTemplateValidForEsc1]
          case true =>
          cases svo with
          | none => simp [isCertTemplateValidForEsc1]
          | some sv =>
            cases sigso with
            | none => simp [isCertTemplateValidForEsc1]
            | some sigs =>
              constructor
              · intro hval
                refine ⟨rfl, rfl, rfl, sv, sigs, rfl, rfl, ?_⟩
                by_contra hcon
                push_neg at hcon
                simp only [isCertTemplateValidForEsc1, if_pos hcon] at hval
                exact Bool.noConfusion (Option.some.inj hval)
              · rintro ⟨-, -, -, sv₁, sigs₁, hsv₁, hsigs₁, hor⟩
                cases Option.some.inj hsv₁
                cases Option.some.inj hsigs₁
                simp only [isCertTemplateValidForEsc1]
                rw [if_neg]
                rintro ⟨ha, hb⟩
                rcases hor with h | h
                · exact absurd ha (not_lt.2 h)
                · exact absurd hb (not_lt.2 h)
  refine ⟨hchar, fun ct sigs hsigs hct => (hchar ct).2 ?_⟩
  rcases hct with ⟨h1, h2, h3, h4, h5⟩ | ⟨h1, h2, h3, h4⟩
  · obtain ⟨sv, hsv⟩ : ∃ sv, ct.schemaVersion = some sv := by
      rcases h : ct.schemaVersion with - | sv
      · rw [h] at h2
        exact h2.elim
      · exact ⟨sv, rfl⟩
    exact ⟨h1, h4, h5, sv, 0, hsv, h3, Or.inr le_rfl⟩
  · exact ⟨h1, h3, h4, 1, sigs, h2, hsigs, Or.inl le_rfl⟩

/-! ### Claim C4: PostADCSESC1 job emission (esc1.go lines 36-65) -/

/-- A Derived Edge Job (`analysis.CreatePostRelationshipJob`). -/
structure PostJob where
  fromID : Nat
  toID : Nat
  kind : String
deriving DecidableEq, Repr

/-- The edge kind emitted by `PostADCSESC1`. -/
def kindADCSESC1 : String := "ADCSESC1"

/-- The result bitmap accumulated by `PostADCSESC1`: the union, over
published templates that pass `isCertTemplateValidForEsc1` (an error
from the validity check is logged and the template skipped), of the
cross-product of the template's enrollers with the CA's enrollers.
`published` pairs each cached template's properties with its enroller
cache entry (`cache.GetCertTemplateEnrollers`), `ecaEnrollers` is
`cache.GetEnterpriseCAEnrollers`. -/
def postADCSESC1Results (sg : List Nat) (exp : Nat → Finset Nat)
    (published : List (CertTemplateProps × List SimpleNode))
    (ecaEnrollers : List SimpleNode) : Finset Nat :=
  published.foldl
    (fun acc t =>
      if isCertTemplateValidForEsc1 t.1 = some true then
        acc ∪ calcCrossProductNodeSets sg exp [t.2, ecaEnrollers]
      else acc) ∅

/-- Shallow embedding of `PostADCSESC1`: for an empty published-template
cache nothing is emitted; otherwise each principal of the result bitmap
(ascending, as `results.Each` iterates) is paired with every target
domain into an `ADCSESC1` Derived Edge Job. -/
def postADCSESC1Jobs (sg : List Nat) (exp : Nat → Finset Nat)
    (published : List (CertTemplateProps × List SimpleNode))
    (ecaEnrollers : List SimpleNode) (targetDomains : List Nat) : List PostJob :=
  if published = [] then []
  else
    (ascList (postADCSESC1Results sg exp published ecaEnrollers)).flatMap
      (fun v => targetDomains.map (fun d => ⟨v, d, kindADCSESC1⟩))

theorem mem_postADCSESC1Results {sg : List Nat} {exp : Nat → Finset Nat}
    {ecaEnrollers : List SimpleNode} {x : Nat} :
    ∀ {published : List (CertTemplateProps × List SimpleNode)},
      x ∈ postADCSESC1Results sg exp published ecaEnrollers ↔
        ∃ t ∈ published, isCertTemplateValidForEsc1 t.1 = some true ∧
          x ∈ calcCrossProductNodeSets sg exp [t.2, ecaEnrollers] := by
  have haux : ∀ (l : List (CertTemplateProps × List SimpleNode))
      (acc : Finset Nat),
      x ∈ l.foldl (fun acc t =>
        if isCertTemplateValidForEsc1 t.1 = some true then
          acc ∪ calcCrossProductNodeSets sg exp [t.2, ecaEnrollers]
        else acc) acc ↔
      x ∈ acc ∨ ∃ t ∈ l, isCertTemplateValidForEsc1 t.1 = some true ∧
        x ∈ calcCrossProductNodeSets sg exp [t.2, ecaEnrollers] := by
    intro l
    induction l with
    | nil => simp
    | cons t rest ih =>
        intro acc
        rw [List.foldl_cons, ih]
        by_cases hv : isCertTemplateValidForEsc1 t.1 = some true
        · simp only [if_pos hv, Finset.mem_union, List.mem_cons]
          constructor
          · rintro ((h | h) | ⟨u, hu, huv, hux⟩)
            · exact Or.inl h
            · exact Or.inr ⟨t, Or.inl rfl, hv, h⟩
            · exact Or.inr ⟨u, Or.inr hu, huv, hux⟩
          · rintro (h | ⟨u, rfl | hu, huv, hux⟩)
            · exact Or.inl (Or.inl h)
            · exact Or.inl (Or.inr hux)
            · exact Or.inr ⟨u, hu, huv, hux⟩
        · simp only [if_neg hv, List.mem_cons]
          constructor
          · rintro (h | ⟨u, hu, huv, hux⟩)
            · exact Or.inl h
            · exact Or.inr ⟨u, Or.inr hu, huv, hux⟩
          · rintro (h | ⟨u, rfl | hu, huv, hux⟩)
            · exact Or.inl h
            · exact absurd huv hv
            · exact Or.inr ⟨u, hu, huv, hux⟩
  intro published
  rw [postADCSESC1Results, haux]
  simp

/-- C4: for every enterprise CA with a non-empty published-template
cache (and a duplicate-free target-domain slice, as `NodeSet.Slice`
yields), `PostADCSESC1` emits exactly one `ADCSESC1` job per pair of a
principal in the union over ESC1-valid published templates of the
cross-product of template enrollers × CA enrollers, and a target
domain — and nothing else.  On the minimal graph (User 1 in Group 2,
Group 2 enrolling on the one valid template, User 1 enrolling on the
CA, one target Domain 6) it emits exactly one job, User 1 → Domain 6. -/
theorem postADCSESC1_jobs_characterization :
    (∀ (sg : List Nat) (exp : Nat → Finset Nat)
       (published : List (CertTemplateProps × List SimpleNode))
       (ecaEnrollers : List SimpleNode) (targetDomains : List Nat),
       published ≠ [] → targetDomains.Nodup →
       (∀ j : PostJob,
          j ∈ postADCSESC1Jobs sg exp published ecaEnrollers targetDomains ↔
            (j.kind = kindADCSESC1 ∧
              j.fromID ∈ postADCSESC1Results sg exp published ecaEnrollers ∧
              j.toID ∈ targetDomains)) ∧
       (postADCSESC1Jobs sg exp published ecaEnrollers targetDomains).Nodup) ∧
    postADCSESC1Jobs [100] (fun n => if n = 2 then {1} else ∅)
        [(⟨some false, some true, some true, some 1, some 0⟩, [⟨2, true⟩])]
        [⟨1, false⟩] [6] = [⟨1, 6, kindADCSESC1⟩] := by
  constructor
  · intro sg exp published ecaEnrollers targetDomains hpub hnd
    have hjobs : postADCSESC1Jobs sg exp published ecaEnrollers targetDomains =
        (ascList (postADCSESC1Results sg exp published ecaEnrollers)).flatMap
          (fun v => targetDomains.map (fun d => ⟨v, d, kindADCSESC1⟩)) := by
      rw [postADCSESC1Jobs, if_neg hpub]
    constructor
    · intro j
      rw [hjobs]
      simp only [List.mem_flatMap, List.mem_map, mem_ascList]
      constructor
      · rintro ⟨v, hv, d, hd, rfl⟩
        exact ⟨rfl, hv, hd⟩
      · rintro ⟨hk, hf, ht⟩
        exact ⟨j.fromID, hf, j.toID, ht, by cases j; cases hk; rfl⟩
    · rw [hjobs]
      rw [List.nodup_flatMap]
      refine ⟨fun v _ => List.Nodup.map ?_ hnd, ?_⟩
      · intro d₁ d₂ h
        injection h
      · have hasc : (ascList
            (postADCSESC1Results sg exp published ecaEnrollers)).Nodup :=
          List.Nodup.filter _ (List.nodup_range _)
        refine List.Pairwise.imp ?_ hasc
        intro v v' hne j hj hj'
        rcases List.mem_map.1 hj with ⟨d, -, rfl⟩
        rcases List.mem_map.1 hj' with ⟨d', -, hEq⟩
        exact hne (congrArg PostJob.fromID hEq).symm
  · rfl

/-! ### Claim C7: GetADCSESC1EdgeComposition path intersection
(esc1.go lines 152-273) -/

/-- The path-rendering tail of `GetADCSESC1EdgeComposition`, after the
two traversal phases have populated `candidateSegments` (`cand`, CA id
to recorded terminal segments — segments are abstracted to integer
codes), `path1EnterpriseCAs` and `path2EnterpriseCAs`:
`path1EnterpriseCAs.And(path2EnterpriseCAs)` followed by
`Each`-iterating the intersection and adding every candidate segment
of each surviving CA. -/
def esc1CompositionPaths (cand : Nat → List Nat)
    (path1CAs path2CAs : Finset Nat) : List Nat :=
  (ascList (path1CAs ∩ path2CAs)).flatMap cand

/-- The composition function's return: once the traversals succeed,
the Go function always returns `(paths, nil)` — there is no error
return in the render phase, so an empty intersection yields an empty
path set with a nil error. -/
def esc1CompositionReturn (cand : Nat → List Nat)
    (path1CAs path2CAs : Finset Nat) : Except String (List Nat) :=
  .ok (esc1CompositionPaths cand path1CAs path2CAs)

/-- C7: `GetADCSESC1EdgeComposition` returns exactly the discovered
path segments whose enterprise CA appears in both the Path-1 and the
Path-2 CA sets, and an empty CA intersection produces the `ok` (nil
error) result carrying an empty path set. -/
theorem esc1Composition_both_paths :
    (∀ (cand : Nat → List Nat) (p1 p2 : Finset Nat) (seg : Nat),
      seg ∈ esc1CompositionPaths cand p1 p2 ↔
        ∃ ca, ca ∈ p1 ∧ ca ∈ p2 ∧ seg ∈ cand ca) ∧
    (∀ (cand : Nat → List Nat) (p1 p2 : Finset Nat),
      p1 ∩ p2 = ∅ → esc1CompositionReturn cand p1 p2 = .ok []) := by
  constructor
  · intro cand p1 p2 seg
    simp only [esc1CompositionPaths, List.mem_flatMap, mem_ascList,
      Finset.mem_inter]
    constructor
    · rintro ⟨ca, ⟨h1, h2⟩, hseg⟩
      exact ⟨ca, h1, h2, hseg⟩
    · rintro ⟨ca, h1, h2, hseg⟩
      exact ⟨ca, ⟨h1, h2⟩, hseg⟩
  · intro cand p1 p2 h
    rw [esc1CompositionReturn, esc1CompositionPaths, h]
    rfl

/-! ### Claim C8: not-found handling in the HasTrustKeys and
SyncLAPSPassword readers (ad.go) -/

/-- A domain node as read by the trust-key and LAPS readers: its id
and the two optional string properties the readers fetch (`NetBIOS`,
`DomainSID`); `none` is a `Properties.Get(...).String()` error. -/
structure DomainNode where
  id : Nat
  netbios : Option String
  sid : Option String
deriving DecidableEq, Repr

/-- Edge kind of `PostHasTrustKeys` jobs. -/
def kindHasTrustKeys : String := "HasTrustKeys"

/-- Edge kind of `PostSyncLAPSPassword` jobs. -/
def kindSyncLAPSPassword : String := "SyncLAPSPassword"

/-- Per-trusting-domain step of the `PostHasTrustKeys` reader: a
trusting domain without a readable `DomainSID` is skipped (debug log,
`continue`), as is one whose trust account lookup finds nothing
(`ta sid netbios`, abstracting `getTrustAccount`). -/
def trustJobsForTrusting (fromId : Nat) (netbios : String)
    (ta : String → String → Option Nat) (td : DomainNode) : List PostJob :=
  match td.sid with
  | none => []
  | some sid =>
    match ta sid netbios with
    | none => []
    | some acct => [⟨fromId, acct, kindHasTrustKeys⟩]

/-- Per-domain step of the `PostHasTrustKeys` reader: a domain without
a readable `NetBIOS` property is skipped (debug log, `continue`);
`tr d.id` abstracts `getDirectOutboundTrustDomains`. -/
def trustJobsForDomain (tr : Nat → List DomainNode)
    (ta : String → String → Option Nat) (d : DomainNode) : List PostJob :=
  match d.netbios with
  | none => []
  | some nb => (tr d.id).flatMap (trustJobsForTrusting d.id nb ta)

/-- The single reader submitted by `PostHasTrustKeys` (ad.go lines
458-488): it loops over all collected domains and ends in `return
nil` — every per-entity failure path is a `continue`, never an error
return. -/
def postHasTrustKeysReader (domains : List DomainNode)
    (tr : Nat → List DomainNode) (ta : String → String → Option Nat) :
    Except String (List PostJob) :=
  .ok (domains.flatMap (trustJobsForDomain tr ta))

/-- Error message of the LAPS reader's SID failure path. -/
def lapsMissingSidMsg : String := "missing domain SID"

/-- The per-domain reader submitted by `PostSyncLAPSPassword` (ad.go
lines 393-414): zero LAPS syncers short-circuits successfully, but
with syncers present, `getLAPSComputersForDomain` reads the domain's
`DomainSID` property and **returns its error** — the reader fails
rather than skipping the domain.  `syncers` abstracts the
`getLAPSSyncers` cross-product, `computersBySid` the LAPS-computer
query. -/
def postSyncLAPSPasswordReader (domain : DomainNode)
    (syncers : Finset Nat) (computersBySid : String → List Nat) :
    Except String (List PostJob) :=
  if syncers.card = 0 then .ok []
  else
    match domain.sid with
    | none => .error lapsMissingSidMsg
    | some s =>
      .ok ((computersBySid s).flatMap
        (fun c => (ascList syncers).map
          (fun v => ⟨v, c, kindSyncLAPSPassword⟩)))

/-- C8 counterexample: the SyncLAPSPassword reader, for a domain with
a nonempty syncer set but no readable SID property, returns a hard
error — not the nil return the claim asserts for every deriver. -/
theorem postSyncLAPSPassword_errors_on_missing_sid :
    postSyncLAPSPasswordReader ⟨1, none, none⟩ {2} (fun _ => [3]) =
      .error lapsMissingSidMsg := by
  rfl

/-- C8 (amended): the HasTrustKeys reader never returns an error; a
domain missing its NetBIOS property is skipped with the remaining
domains still processed, and a trusting domain missing its DomainSID
property contributes no jobs; the SyncLAPSPassword reader, by
contrast, returns a hard error (failing that reader job) when the
domain has LAPS syncers but its SID property is unreadable. -/
theorem notFound_skip_behaviour :
    (∀ (domains : List DomainNode) (tr : Nat → List DomainNode)
       (ta : String → String → Option Nat),
      (postHasTrustKeysReader domains tr ta).isOk = true) ∧
    (∀ (d : DomainNode) (rest : List DomainNode)
       (tr : Nat → List DomainNode) (ta : String → String → Option Nat),
      d.netbios = none →
      postHasTrustKeysReader (d :: rest) tr ta =
        postHasTrustKeysReader rest tr ta) ∧
    (∀ (fromId : Nat) (nb : String) (ta : String → String → Option Nat)
       (td : DomainNode),
      td.sid = none → trustJobsForTrusting fromId nb ta td = []) ∧
    (∀ (domain : DomainNode) (syncers : Finset Nat)
       (computersBySid : String → List Nat),
      syncers.Nonempty → domain.sid = none →
      postSyncLAPSPasswordReader domain syncers computersBySid =
        .error lapsMissingSidMsg) := by
  refine ⟨fun _ _ _ => rfl, ?_, ?_, ?_⟩
  · intro d rest tr ta hnb
    simp [postHasTrustKeysReader, trustJobsForDomain, hnb]
  · intro fromId nb ta td hsid
    simp [trustJobsForTrusting, hsid]
  · intro domain syncers computersBySid hne hsid
    rw [postSyncLAPSPasswordReader, if_neg (by
      simpa using Finset.card_ne_zero_of_mem hne.choose_spec), hsid]

/-! ### Claim C9: duplex type assertions on the RDP path (ad.go:
FetchCanRDPEntityBitmapForComputer, FetchRemoteDesktopUsersBitmapForComputer,
ProcessRDPWithUra) -/

/-- A `cardinality.Provider[uint64]` value returned by the aggregator:
either the mutable duplex (bitmap) implementation or some other
provider, on which the `.(cardinality.Duplex[uint64])` assertion
fails. -/
inductive CardinalityProvider where
  | duplex (s : Finset Nat)
  | simplex
deriving DecidableEq

/-- Outcome of a Go function on the RDP path: a normal `(bitmap, nil)`
return, a `(_, err)` return, or a runtime panic from an unchecked type
assertion. -/
inductive RDPOutcome where
  | ok (s : Finset Nat)
  | err (msg : String)
  | panicked
deriving DecidableEq

/-- The loop of `ProcessRDPWithUra` over the RIL (remote interactive
logon right) entities: direct members of the RDP group are kept;
non-member groups are expanded through the aggregator with an
**unchecked** duplex assertion (`.(cardinality.Duplex[uint64])`), which
panics on any other provider; afterwards the expanded secondary
targets that are RDP-group members are folded in. -/
def processRDPWithUraRilLoop (expansions : Nat → CardinalityProvider)
    (rdpMembers : Finset Nat) :
    List SimpleNode → Finset Nat → Finset Nat → RDPOutcome
  | [], rdpEntities, secondary =>
      .ok (rdpEntities ∪ secondary.filter (fun e => e ∈ rdpMembers))
  | e :: rest, rdpEntities, secondary =>
      if e.id ∈ rdpMembers then
        processRDPWithUraRilLoop expansions rdpMembers rest
          (insert e.id rdpEntities) secondary
      else if e.isGroup then
        match expansions e.id with
        | .simplex => .panicked
        | .duplex s =>
            processRDPWithUraRilLoop expansions rdpMembers rest rdpEntities
              (secondary ∪ s)
      else processRDPWithUraRilLoop expansions rdpMembers rest rdpEntities secondary

/-- Shallow embedding of `ProcessRDPWithUra`: the very first line
asserts the RDP local group's cardinality entry to be a duplex
**without** a check — a non-duplex provider is a panic, not an error
return.  `hasRIL` is `HasRemoteInteractiveLogonRight`,
`firstDegreeRDPMembers` the triples fetched on the shortcut branch,
`rilEntities` the `FetchRemoteInteractiveLogonRightEntities` rows. -/
def processRDPWithUra (expansions : Nat → CardinalityProvider)
    (rdpLocalGroupId : Nat) (hasRIL : Bool)
    (firstDegreeRDPMembers : List Nat) (rilEntities : List SimpleNode) :
    RDPOutcome :=
  match expansions rdpLocalGroupId with
  | .simplex => .panicked
  | .duplex rdpMembers =>
      if hasRIL then .ok firstDegreeRDPMembers.toFinset
      else processRDPWithUraRilLoop expansions rdpMembers rilEntities ∅ ∅

/-- Shallow embedding of `FetchRemoteDesktopUsersBitmapForComputer`:
a missing RDP local group is a not-found success; with URA data the
URA path runs, otherwise the plain local-group bitmap is returned. -/
def fetchRemoteDesktopUsersBitmap (expansions : Nat → CardinalityProvider)
    (rdpLocalGroupLookup : Option Nat) (uraApplies : Bool) (hasRIL : Bool)
    (firstDegreeRDPMembers : List Nat) (rilEntities : List SimpleNode)
    (nonURABitmap : Finset Nat) : RDPOutcome :=
  match rdpLocalGroupLookup with
  | none => .ok ∅
  | some gid =>
      if uraApplies then
        processRDPWithUra expansions gid hasRIL firstDegreeRDPMembers rilEntities
      else .ok nonURABitmap

/-- The error message of the Citrix-branch duplex assertion in
`FetchCanRDPEntityBitmapForComputer`. -/
def dauAssertErrMsg : String :=
  "type assertion failed in FetchCanRDPEntityBitmapForComputer"

/-- Shallow embedding of `FetchCanRDPEntityBitmapForComputer`: the
Citrix branch checks its duplex assertion on the Direct Access Users
group and returns a hard error on failure; panics from
`ProcessRDPWithUra` propagate. -/
def fetchCanRDPEntityBitmap (expansions : Nat → CardinalityProvider)
    (rdpLocalGroupLookup : Option Nat) (uraApplies : Bool) (hasRIL : Bool)
    (firstDegreeRDPMembers : List Nat) (rilEntities : List SimpleNode)
    (nonURABitmap : Finset Nat) (citrixEnabled : Bool)
    (dauLookup : Option Nat) : RDPOutcome :=
  match fetchRemoteDesktopUsersBitmap expansions rdpLocalGroupLookup uraApplies
      hasRIL firstDegreeRDPMembers rilEntities nonURABitmap with
  | .panicked => .panicked
  | .err m => .err m
  | .ok remoteDesktopUsers =>
      if remoteDesktopUsers.card = 0 ∨ citrixEnabled = false then
        .ok remoteDesktopUsers
      else
        match dauLookup with
        | none => .ok remoteDesktopUsers
        | some dauId =>
            match expansions dauId with
            | .simplex => .err dauAssertErrMsg
            | .duplex s => .ok (s ∩ remoteDesktopUsers)

/-- C9 counterexample: with URA enforced and an aggregator whose entry
for the RDP local group is not a duplex, the call panics (unchecked
assertion in `ProcessRDPWithUra`) instead of returning an error
value. -/
theorem fetchCanRDP_panics_on_nonduplex :
    fetchCanRDPEntityBitmap (fun _ => .simplex) (some 10) true false []
      [⟨4, true⟩] ∅ false none = .panicked := by rfl

/-- C9 (amended): `FetchCanRDPEntityBitmapForComputer` returns a hard
error value when its own (Citrix-branch) duplex assertion fails, but
`ProcessRDPWithUra`, which it calls on the URA path, performs
unchecked duplex assertions — on the RDP local group's entry and on
each expanded RIL group's entry — that panic rather than return an
error. -/
theorem rdpDuplexAssertion_behaviour :
    (∀ (expansions : Nat → CardinalityProvider) (gid : Nat)
       (hasRIL : Bool) (fd : List Nat) (ril : List SimpleNode)
       (nonURA : Finset Nat) (dauId : Nat),
      nonURA.card ≠ 0 → expansions dauId = .simplex →
      fetchCanRDPEntityBitmap expansions (some gid) false hasRIL fd ril
          nonURA true (some dauId) = .err dauAssertErrMsg) ∧
    (∀ (expansions : Nat → CardinalityProvider) (gid : Nat)
       (hasRIL : Bool) (fd : List Nat) (ril : List SimpleNode)
       (nonURA : Finset Nat) (citrix : Bool) (dau : Option Nat),
      expansions gid = .simplex →
      fetchCanRDPEntityBitmap expansions (some gid) true hasRIL fd ril
          nonURA citrix dau = .panicked) ∧
    (∀ (expansions : Nat → CardinalityProvider) (rdpMembers : Finset Nat)
       (rest : List SimpleNode) (e : SimpleNode) (acc sec : Finset Nat),
      e.id ∉ rdpMembers → e.isGroup = true → expansions e.id = .simplex →
      processRDPWithUraRilLoop expansions rdpMembers (e :: rest) acc sec =
        .panicked) := by
  refine ⟨?_, ?_, ?_⟩
  · intro expansions gid hasRIL fd ril nonURA dauId hcard hdau
    rw [fetchCanRDPEntityBitmap]
    simp only [fetchRemoteDesktopUsersBitmap, if_neg Bool.false_ne_true]
    rw [if_neg (by simp [hcard]), hdau]
  · intro expansions gid hasRIL fd ril nonURA citrix dau hgid
    rw [fetchCanRDPEntityBitmap]
    simp only [fetchRemoteDesktopUsersBitmap, processRDPWithUra, hgid]
    simp
  · intro expansions rdpMembers rest e acc sec hmem hgrp hexp
    rw [processRDPWithUraRilLoop, if_neg hmem, if_pos hgrp, hexp]

/-! ### Claims C5 and C6: ResolveAllGroupMemberships (membership.go)
and the path aggregator

The traversal loop, its delegate, the global visited bitmap and the
AddShortcut/AddPath call sites are embedded from membership.go.  The
aggregator itself (`impact.NewIDA` / `impact.NewThreadSafeAggregator`)
is repository code not present in the provided sources, so it is
modelled from the spec (§3, §4.2).

A membership graph is a list of directed edges `(s, t)` meaning `s`
has a `MemberOf`/`MemberOfLocalGroup` relationship to `t`.  A
traversal chain is the node list of one discovered path, current node
first, BFS root last (`graph.IDSegment`, terminal to root). -/

/-- State of one `ResolveAllGroupMemberships` run: the global visited
bitmap (`traversalMap`) plus the spec-modelled aggregator state —
`members a` holds the directly recorded members of `a` (one entry per
walked segment edge), `shortcuts a` the nodes whose already-known
Reachability Sets are to be OR'd into `a`'s set lazily
(`AddShortcut`).  `Cardinality` resolves both through the same lazy
closure, so a member's own resolved set always folds into every group
above it, as the §3 invariant demands. -/
structure RState where
  visited : Finset Nat
  members : Nat → Finset Nat
  shortcuts : Nat → Finset Nat

/-- Record every consecutive edge `(x, y)` of a chain: `x` becomes a
direct member of `y`. -/
def addPairs : List Nat → (Nat → Finset Nat) → (Nat → Finset Nat)
  | x :: y :: rest, m =>
      addPairs (y :: rest) (fun a => if a = y then insert x (m a) else m a)
  | _, m => m

/-- Modelled from the spec: `impact.PathAggregator.AddPath` (not under
the provided sources).  Per §4.2 it walks the segment chain from
terminal to root; each walked edge records its start node as a direct
member of its end node, so that the root group's resolved set receives
every traversed node id. -/
def aggAddPath (chain : List Nat) (st : RState) : RState :=
  { st with members := addPairs chain st.members }

/-- Modelled from the spec: `impact.PathAggregator.AddShortcut` (not
under the provided sources).  Per §4.2 it records that the terminal
node's already-known Reachability Set is OR'd into the set above it
lazily, instead of re-walking the terminal's membership. -/
def aggAddShortcut (chain : List Nat) (st : RState) : RState :=
  match chain with
  | t :: p :: _ =>
      { st with shortcuts :=
          fun a => if a = p then insert t (st.shortcuts a) else st.shortcuts a }
  | _ => st

/-- The combined member adjacency the resolution walks: directly
recorded members plus lazily referenced shortcut terminals. -/
def madj (st : RState) : Nat → Finset Nat :=
  fun a => st.members a ∪ st.shortcuts a

/-- One resolution step: a set of nodes grows by every recorded member
or shortcut terminal of its elements. -/
def reachStep (adj : Nat → Finset Nat) (s : Finset Nat) : Finset Nat :=
  s ∪ s.biUnion adj

/-- Iterated resolution. -/
def reachIter (adj : Nat → Finset Nat) : Nat → Finset Nat → Finset Nat
  | 0, s => s
  | n + 1, s => reachIter adj n (reachStep adj s)

/-- Modelled from the spec: `impact.PathAggregator.Cardinality(id)`
(not under the provided sources) — the full transitive membership of
`id`, resolving recorded members and pending shortcuts (§4.2) with
`fuel` resolution rounds; a group is not a member of itself, and an
unknown id has an empty set. -/
def aggCardinality (st : RState) (fuel : Nat) (x : Nat) : Finset Nat :=
  (reachIter (madj st) fuel {x}).erase x

/-- One edge of the delegate's triple cursor: into an unvisited start
node the BFS descends (`CheckedAdd` succeeds and a new segment is
queued); an already-visited start node becomes an `AddShortcut` call
on the descended segment. -/
def descendFold (chain : List Nat) (acc : List (List Nat) × RState)
    (e : Nat × Nat) : List (List Nat) × RState :=
  if e.1 ∈ acc.2.visited then (acc.1, aggAddShortcut (e.1 :: chain) acc.2)
  else
    (acc.1 ++ [e.1 :: chain],
     { acc.2 with visited := insert e.1 acc.2.visited })

/-- One delegate invocation of `ResolveAllGroupMemberships`
(membership.go lines 75-103) on the segment whose chain is `chain`
(current node first): fetch the inbound member edges of the node
(`newTraversalQuery`: `EndID = node ∧ ¬(StartID = node)`), and for
each, either descend into an unvisited start node
(`traversalMap.CheckedAdd` succeeding) or call `AddShortcut` on the
descended segment; a segment with no next segments is terminal and
calls `AddPath`. -/
def delegateStep (edges : List (Nat × Nat)) (chain : List Nat) (st : RState) :
    List (List Nat) × RState :=
  match chain with
  | [] => ([], st)
  | node :: _ =>
      let triples := edges.filter (fun e => e.2 = node ∧ e.1 ≠ node)
      let out := triples.foldl (descendFold chain) ([], st)
      if out.1 = [] then ([], aggAddPath chain out.2)
      else out

/-- The breadth-first engine (spec §4.3, `traversal.NewIDTraversal`):
a FIFO queue of segments, each processed once by the delegate, its
next segments appended; `fuel` bounds the number of processed
segments (`none` = fuel exhausted). -/
def runQueue (edges : List (Nat × Nat)) :
    Nat → List (List Nat) → RState → Option RState
  | 0, _, _ => none
  | _ + 1, [], st => some st
  | fuel + 1, chain :: queue, st =>
      let step := delegateStep edges chain st
      runQueue edges fuel (queue ++ step.1) step.2

/-- The root loop of `ResolveAllGroupMemberships` (membership.go lines
68-107): every fetched group id gets one BFS rooted at it unless the
global visited bitmap already holds it. -/
def runRoots (edges : List (Nat × Nat)) (fuel : Nat) :
    List Nat → RState → Option RState
  | [], st => some st
  | g :: gs, st =>
      if g ∈ st.visited then runRoots edges fuel gs st
      else
        match runQueue edges fuel [[g]] st with
        | none => none
        | some st1 => runRoots edges fuel gs st1

/-- Shallow embedding of `ResolveAllGroupMemberships`: run every group
root over the member-edge list, starting from an empty visited bitmap
and an empty aggregator. -/
def resolveAllGroupMemberships (edges : List (Nat × Nat)) (groups : List Nat)
    (fuel : Nat) : Option RState :=
  runRoots edges fuel groups ⟨∅, fun _ => ∅, fun _ => ∅⟩

theorem runQueue_cons (edges : List (Nat × Nat)) (fuel : Nat)
    (chain : List Nat) (queue : List (List Nat)) (st : RState) :
    runQueue edges (fuel + 1) (chain :: queue) st =
      runQueue edges fuel (queue ++ (delegateStep edges chain st).1)
        (delegateStep edges chain st).2 := rfl

theorem runQueue_nil (edges : List (Nat × Nat)) (fuel : Nat) (st : RState) :
    runQueue edges (fuel + 1) [] st = some st := rfl

theorem runRoots_nil (edges : List (Nat × Nat)) (fuel : Nat) (st : RState) :
    runRoots edges fuel [] st = some st := rfl

theorem runRoots_cons (edges : List (Nat × Nat)) (fuel : Nat) (g : Nat)
    (gs : List Nat) (st : RState) :
    runRoots edges fuel (g :: gs) st =
      if g ∈ st.visited then runRoots edges fuel gs st
      else
        match runQueue edges fuel [[g]] st with
        | none => none
        | some st1 => runRoots edges fuel gs st1 := rfl

theorem runRoots_cons_mem (edges : List (Nat × Nat)) (fuel : Nat) (g : Nat)
    (gs : List Nat) (st : RState) (hg : g ∈ st.visited) :
    runRoots edges fuel (g :: gs) st = runRoots edges fuel gs st := by
  rw [runRoots_cons, if_pos hg]

theorem runRoots_cons_notmem (edges : List (Nat × Nat)) (fuel : Nat) (g : Nat)
    (gs : List Nat) (st st2 : RState) (hg : g ∉ st.visited)
    (h : runQueue edges fuel [[g]] st = some st2) :
    runRoots edges fuel (g :: gs) st = runRoots edges fuel gs st2 := by
  rw [runRoots_cons, if_neg hg, h]

theorem reachIter_fixed {adj : Nat → Finset Nat} {s : Finset Nat}
    (h : reachStep adj s = s) : ∀ n, reachIter adj n s = s
  | 0 => rfl
  | n + 1 => by rw [reachIter, h, reachIter_fixed h n]

theorem reachIter_succ (adj : Nat → Finset Nat) (n : Nat) (s : Finset Nat) :
    reachIter adj (n + 1) s = reachIter adj n (reachStep adj s) := rfl

/-- C5: on the synthetic graph A member of B, B member of C, with the
cycle C member of A, `ResolveAllGroupMemberships` terminates (the BFS
descends into each node at most once, enforced by the global visited
bitmap, so six processed segments of fuel suffice) and the resolved
transitive membership of C is exactly `{A, B}` — each member once, C
itself not included despite the cycle. -/
theorem resolveAllGroupMemberships_cycle (a b c : Nat)
    (hab : a ≠ b) (hac : a ≠ c) (hbc : b ≠ c) :
    (resolveAllGroupMemberships [(a, b), (b, c), (c, a)] [a, b, c] 6).map
        (fun st => aggCardinality st 5 c) = some {a, b} := by
  have hba := hab.symm
  have hca := hac.symm
  have hcb := hbc.symm
  have h1 : delegateStep [(a, b), (b, c), (c, a)] [a]
      ⟨∅, fun _ => ∅, fun _ => ∅⟩ =
      ([[c, a]], ⟨{c}, fun _ => ∅, fun _ => ∅⟩) := by
    simp [delegateStep, descendFold, hab, hac, hbc, hba, hca, hcb]
  have h2 : delegateStep [(a, b), (b, c), (c, a)] [c, a]
      ⟨{c}, fun _ => ∅, fun _ => ∅⟩ =
      ([[b, c, a]], ⟨{c, b}, fun _ => ∅, fun _ => ∅⟩) := by
    simp [delegateStep, descendFold, hab, hac, hbc, hba, hca, hcb, Finset.pair_comm]
  have h3 : delegateStep [(a, b), (b, c), (c, a)] [b, c, a]
      ⟨{c, b}, fun _ => ∅, fun _ => ∅⟩ =
      ([[a, b, c, a]], ⟨{c, b, a}, fun _ => ∅, fun _ => ∅⟩) := by
    simp [delegateStep, descendFold, hab, hac, hbc, hba, hca, hcb]
    ext x
    simp
    tauto
  have h4 : delegateStep [(a, b), (b, c), (c, a)] [a, b, c, a]
      ⟨{c, b, a}, fun _ => ∅, fun _ => ∅⟩ =
      ([], ⟨{c, b, a}, addPairs [a, b, c, a] (fun _ => ∅),
        fun x => if x = a then {c} else ∅⟩) := by
    simp only [delegateStep]
    simp [descendFold, aggAddShortcut, aggAddPath, hab, hac, hbc, hba, hca,
      hcb]
  have hrun : runQueue [(a, b), (b, c), (c, a)] 6 [[a]]
      ⟨∅, fun _ => ∅, fun _ => ∅⟩ =
      some ⟨{c, b, a}, addPairs [a, b, c, a] (fun _ => ∅),
        fun x => if x = a then {c} else ∅⟩ := by
    rw [show (6 : Nat) = 5 + 1 from rfl, runQueue_cons, h1]
    rw [show (5 : Nat) = 4 + 1 from rfl]
    simp only [List.nil_append]
    rw [runQueue_cons, h2]
    rw [show (4 : Nat) = 3 + 1 from rfl]
    simp only [List.nil_append]
    rw [runQueue_cons, h3]
    rw [show (3 : Nat) = 2 + 1 from rfl]
    simp only [List.nil_append]
    rw [runQueue_cons, h4]
    rw [show (2 : Nat) = 1 + 1 from rfl]
    simp only [List.append_nil]
    rw [runQueue_nil]
  rw [resolveAllGroupMemberships,
    runRoots_cons_notmem _ _ _ _ _ _ (Finset.not_mem_empty a) hrun,
    runRoots_cons_mem _ _ _ _ _ (by simp),
    runRoots_cons_mem _ _ _ _ _ (by simp), runRoots_nil]
  rw [Option.map_some']
  congr 1
  rw [aggCardinality]
  have hmadj : madj ⟨{c, b, a}, addPairs [a, b, c, a] (fun _ => ∅),
      fun x => if x = a then {c} else ∅⟩ =
      fun x => if x = a then {c} else if x = b then {a}
        else if x = c then {b} else ∅ := by
    funext x
    by_cases hxa : x = a
    · subst hxa
      simp [madj, addPairs, hab, hac, hbc, hba, hca, hcb]
    · by_cases hxb : x = b
      · subst hxb
        simp [madj, addPairs, hab, hac, hbc, hba, hca, hcb, hxa]
      · by_cases hxc : x = c
        · subst hxc
          simp [madj, addPairs, hab, hac, hbc, hba, hca, hcb, hxa, hxb]
        · simp [madj, addPairs, hxa, hxb, hxc]
  rw [hmadj]
  have hs1 : reachStep (fun x => if x = a then {c} else if x = b then {a}
      else if x = c then {b} else ∅) {c} = {c, b} := by
    rw [reachStep]
    ext x
    simp [hca, hcb]
  have hs2 : reachStep (fun x => if x = a then {c} else if x = b then {a}
      else if x = c then {b} else ∅) {c, b} = {c, b, a} := by
    rw [reachStep]
    ext x
    simp [hca, hcb, hba]
  have hs3 : reachStep (fun x => if x = a then {c} else if x = b then {a}
      else if x = c then {b} else ∅) {c, b, a} = {c, b, a} := by
    rw [reachStep]
    ext x
    simp [hca, hcb, hba]
    tauto
  rw [show (5 : Nat) = 4 + 1 from rfl, reachIter_succ, hs1,
    show (4 : Nat) = 3 + 1 from rfl, reachIter_succ, hs2,
    reachIter_fixed hs3]
  rw [show ({c, b, a} : Finset Nat).erase c = {b, a} from by
    rw [Finset.erase_insert (by simp [hcb, hca])]]
  ext x
  simp
  tauto

/-- C5 witness: the synthetic cycle at the concrete ids A = 1, B = 2,
C = 3. -/
theorem resolveAllGroupMemberships_cycle_witness :
    (resolveAllGroupMemberships [(1, 2), (2, 3), (3, 1)] [1, 2, 3] 6).map
        (fun st => aggCardinality st 5 3) = some {1, 2} :=
  resolveAllGroupMemberships_cycle 1 2 3 (by decide) (by decide) (by decide)

/-! #### Claim C6: the mixed AddPath/AddShortcut run resolves every
group to the pure-AddPath reference set -/

/-- A membership step of the graph: a member edge whose endpoints
differ (the traversal query rejects self-loops). -/
def estep (edges : List (Nat × Nat)) (s t : Nat) : Prop :=
  (s, t) ∈ edges ∧ s ≠ t

/-- The consecutive pairs (walked segment edges) of a chain. -/
def chainPairs : List Nat → List (Nat × Nat)
  | x :: y :: rest => (x, y) :: chainPairs (y :: rest)
  | _ => []

/-- Start nodes of the edge list: every node the BFS can descend
into. -/
def startsE (edges : List (Nat × Nat)) : Finset Nat :=
  (edges.map Prod.fst).toFinset

/-- Reference definition following the spec's words (§4.2, §8):
resolving group membership via pure `AddPath` chains walks every
discovered membership path in full, so a group's final Reachability
Set holds exactly the nodes with a membership path into it; a group is
not its own member. -/
def specAddPathMembership (edges : List (Nat × Nat)) (g : Nat) : Set Nat :=
  {x | Relation.TransGen (estep edges) x g ∧ x ≠ g}

/-- State growth along a run: the visited bitmap, the recorded members
and the recorded shortcuts only grow. -/
def stLE (st st1 : RState) : Prop :=
  st.visited ⊆ st1.visited ∧ (∀ a, st.members a ⊆ st1.members a) ∧
    (∀ a, st.shortcuts a ⊆ st1.shortcuts a)

theorem stLE_refl (st : RState) : stLE st st :=
  ⟨subset_rfl, fun _ => subset_rfl, fun _ => subset_rfl⟩

theorem stLE_trans {s t u : RState} (h1 : stLE s t) (h2 : stLE t u) :
    stLE s u :=
  ⟨h1.1.trans h2.1, fun a => (h1.2.1 a).trans (h2.2.1 a),
   fun a => (h1.2.2 a).trans (h2.2.2 a)⟩

theorem mem_addPairs :
    ∀ (chain : List Nat) (m : Nat → Finset Nat) (a x : Nat),
      x ∈ addPairs chain m a ↔ x ∈ m a ∨ (x, a) ∈ chainPairs chain
  | [], m, a, x => by simp [addPairs, chainPairs]
  | [z], m, a, x => by simp [addPairs, chainPairs]
  | z :: y :: rest, m, a, x => by
      rw [addPairs, mem_addPairs (y :: rest) _ a x]
      by_cases hay : a = y
      · subst hay
        simp only [chainPairs, List.mem_cons, Prod.mk.injEq, Finset.mem_insert,
          eq_self_iff_true, if_true, and_true]
        tauto
      · simp only [chainPairs, List.mem_cons, Prod.mk.injEq, if_neg hay]
        tauto

theorem addPairs_mono (chain : List Nat) (m : Nat → Finset Nat) (a : Nat) :
    m a ⊆ addPairs chain m a := by
  intro x hx
  exact (mem_addPairs chain m a x).2 (Or.inl hx)

theorem chainPairs_cons (s node : Nat) (rest : List Nat) :
    chainPairs (s :: node :: rest) = (s, node) :: chainPairs (node :: rest) :=
  rfl

theorem chainPairs_of_chain :
    ∀ {R : Nat → Nat → Prop} {C : List Nat}, List.Chain' R C →
      ∀ p ∈ chainPairs C, R p.1 p.2
  | _, [], _, p, hp => by simp [chainPairs] at hp
  | _, [_], _, p, hp => by simp [chainPairs] at hp
  | R, x :: y :: rest, h, p, hp => by
      rw [chainPairs_cons, List.mem_cons] at hp
      rcases hp with rfl | hp
      · exact (List.chain'_cons.1 h).1
      · exact chainPairs_of_chain (List.chain'_cons.1 h).2 p hp

theorem aggAddShortcut_members :
    ∀ (chain : List Nat) (st : RState),
      (aggAddShortcut chain st).members = st.members
  | [], _ => rfl
  | [_], _ => rfl
  | _ :: _ :: _, _ => rfl

theorem aggAddShortcut_visited :
    ∀ (chain : List Nat) (st : RState),
      (aggAddShortcut chain st).visited = st.visited
  | [], _ => rfl
  | [_], _ => rfl
  | _ :: _ :: _, _ => rfl

theorem mem_aggAddShortcut_shortcuts (t p : Nat) (rest : List Nat)
    (st : RState) (a x : Nat) :
    x ∈ (aggAddShortcut (t :: p :: rest) st).shortcuts a ↔
      x ∈ st.shortcuts a ∨ (x = t ∧ a = p) := by
  show x ∈ (if a = p then insert t (st.shortcuts a) else st.shortcuts a) ↔ _
  by_cases hap : a = p
  · rw [if_pos hap]
    simp only [Finset.mem_insert]
    tauto
  · rw [if_neg hap]
    tauto

theorem aggAddPath_members (chain : List Nat) (st : RState) :
    (aggAddPath chain st).members = addPairs chain st.members := rfl

theorem aggAddPath_visited (chain : List Nat) (st : RState) :
    (aggAddPath chain st).visited = st.visited := rfl

theorem aggAddPath_shortcuts (chain : List Nat) (st : RState) :
    (aggAddPath chain st).shortcuts = st.shortcuts := rfl

theorem sdiff_insert_erase (S t : Finset Nat) (a : Nat) :
    S \ insert a t = (S \ t).erase a := by
  ext y
  simp only [Finset.mem_sdiff, Finset.mem_erase, Finset.mem_insert]
  tauto

theorem descendFold_members (node : Nat) (rest : List Nat) :
    ∀ (ts : List (Nat × Nat)) (acc : List (List Nat) × RState),
      (List.foldl (descendFold (node :: rest)) acc ts).2.members =
        acc.2.members
  | [], _ => rfl
  | e :: ts, acc => by
      rw [List.foldl_cons, descendFold_members node rest ts]
      by_cases h : e.1 ∈ acc.2.visited
      · simp only [descendFold, if_pos h, aggAddShortcut_members]
      · simp only [descendFold, if_neg h]

theorem descendFold_visited_mono (node : Nat) (rest : List Nat) :
    ∀ (ts : List (Nat × Nat)) (acc : List (List Nat) × RState),
      acc.2.visited ⊆
        (List.foldl (descendFold (node :: rest)) acc ts).2.visited
  | [], _ => subset_rfl
  | e :: ts, acc => by
      rw [List.foldl_cons]
      refine subset_trans ?_ (descendFold_visited_mono node rest ts _)
      by_cases h : e.1 ∈ acc.2.visited
      · simp only [descendFold, if_pos h, aggAddShortcut_visited]
        exact subset_rfl
      · simp only [descendFold, if_neg h]
        exact Finset.subset_insert _ _

theorem descendFold_shortcuts_mono (node : Nat) (rest : List Nat) :
    ∀ (ts : List (Nat × Nat)) (acc : List (List Nat) × RState) (a : Nat),
      acc.2.shortcuts a ⊆
        (List.foldl (descendFold (node :: rest)) acc ts).2.shortcuts a
  | [], _, _ => subset_rfl
  | e :: ts, acc, a => by
      rw [List.foldl_cons]
      refine subset_trans ?_ (descendFold_shortcuts_mono node rest ts _ a)
      by_cases h : e.1 ∈ acc.2.visited
      · simp only [descendFold, if_pos h]
        intro x hx
        exact (mem_aggAddShortcut_shortcuts e.1 node rest acc.2 a x).2
          (Or.inl hx)
      · simp only [descendFold, if_neg h]
        exact subset_rfl

theorem descendFold_shortcuts_sound (node : Nat) (rest : List Nat) :
    ∀ (ts : List (Nat × Nat)) (acc : List (List Nat) × RState) (a x : Nat),
      x ∈ (List.foldl (descendFold (node :: rest)) acc ts).2.shortcuts a →
        x ∈ acc.2.shortcuts a ∨ (a = node ∧ ∃ e ∈ ts, x = e.1)
  | [], _, _, _ => fun hx => Or.inl hx
  | e :: ts, acc, a, x => by
      intro hx
      rw [List.foldl_cons] at hx
      rcases descendFold_shortcuts_sound node rest ts _ a x hx with
        hx1 | ⟨ha, e1, he1, hxe⟩
      · by_cases h : e.1 ∈ acc.2.visited
        · simp only [descendFold, if_pos h] at hx1
          rcases (mem_aggAddShortcut_shortcuts e.1 node rest acc.2 a x).1 hx1
            with h1 | ⟨hxe, han⟩
          · exact Or.inl h1
          · exact Or.inr ⟨han, e, List.mem_cons_self e ts, hxe⟩
        · simp only [descendFold, if_neg h] at hx1
          exact Or.inl hx1
      · exact Or.inr ⟨ha, e1, List.mem_cons_of_mem e he1, hxe⟩

theorem descendFold_queue_mono (node : Nat) (rest : List Nat) :
    ∀ (ts : List (Nat × Nat)) (acc : List (List Nat) × RState)
      (C : List Nat), C ∈ acc.1 →
      C ∈ (List.foldl (descendFold (node :: rest)) acc ts).1
  | [], _, _ => fun hC => hC
  | e :: ts, acc, C => by
      intro hC
      rw [List.foldl_cons]
      refine descendFold_queue_mono node rest ts _ C ?_
      by_cases h : e.1 ∈ acc.2.visited
      · simp only [descendFold, if_pos h]
        exact hC
      · simp only [descendFold, if_neg h]
        exact List.mem_append_left _ hC

theorem descendFold_queue_sound (node : Nat) (rest : List Nat) :
    ∀ (ts : List (Nat × Nat)) (acc : List (List Nat) × RState)
      (C : List Nat),
      C ∈ (List.foldl (descendFold (node :: rest)) acc ts).1 →
        C ∈ acc.1 ∨ ∃ e ∈ ts, C = e.1 :: node :: rest
  | [], _, _ => fun hC => Or.inl hC
  | e :: ts, acc, C => by
      intro hC
      rw [List.foldl_cons] at hC
      rcases descendFold_queue_sound node rest ts _ C hC with
        hC1 | ⟨e1, he1, hCe⟩
      · by_cases h : e.1 ∈ acc.2.visited
        · simp only [descendFold, if_pos h] at hC1
          exact Or.inl hC1
        · simp only [descendFold, if_neg h] at hC1
          rcases List.mem_append.1 hC1 with h1 | h1
          · exact Or.inl h1
          · exact Or.inr ⟨e, List.mem_cons_self e ts, List.mem_singleton.1 h1⟩
      · exact Or.inr ⟨e1, List.mem_cons_of_mem e he1, hCe⟩

theorem descendFold_handles (node : Nat) (rest : List Nat) :
    ∀ (ts : List (Nat × Nat)) (acc : List (List Nat) × RState),
      ∀ e ∈ ts,
        e.1 ∈ (List.foldl (descendFold (node :: rest)) acc ts).2.visited ∧
          ((e.1 :: node :: rest) ∈
              (List.foldl (descendFold (node :: rest)) acc ts).1 ∨
            e.1 ∈
              (List.foldl (descendFold (node :: rest)) acc ts).2.shortcuts
                node)
  | [], _ => by simp
  | e0 :: ts, acc => by
      intro e he
      rw [List.foldl_cons]
      rcases List.mem_cons.1 he with rfl | he1
      · by_cases h : e.1 ∈ acc.2.visited
        · constructor
          · refine descendFold_visited_mono node rest ts _ ?_
            simp only [descendFold, if_pos h, aggAddShortcut_visited]
            exact h
          · right
            refine descendFold_shortcuts_mono node rest ts _ node ?_
            simp only [descendFold, if_pos h]
            exact (mem_aggAddShortcut_shortcuts e.1 node rest acc.2 node
              e.1).2 (Or.inr ⟨rfl, rfl⟩)
        · constructor
          · refine descendFold_visited_mono node rest ts _ ?_
            simp only [descendFold, if_neg h]
            exact Finset.mem_insert_self _ _
          · left
            refine descendFold_queue_mono node rest ts _ _ ?_
            simp only [descendFold, if_neg h]
            exact List.mem_append_right _ (by simp)
      · exact descendFold_handles node rest ts _ e he1

theorem descendFold_visited_queued (node : Nat) (rest : List Nat) :
    ∀ (ts : List (Nat × Nat)) (acc : List (List Nat) × RState) (v : Nat),
      v ∈ (List.foldl (descendFold (node :: rest)) acc ts).2.visited →
        v ∈ acc.2.visited ∨
          (v :: node :: rest) ∈ (List.foldl (descendFold (node :: rest)) acc ts).1
  | [], _, _ => fun hv => Or.inl hv
  | e :: ts, acc, v => by
      intro hv
      rw [List.foldl_cons] at hv ⊢
      rcases descendFold_visited_queued node rest ts _ v hv with hv1 | hq
      · by_cases h : e.1 ∈ acc.2.visited
        · simp only [descendFold, if_pos h, aggAddShortcut_visited] at hv1
          exact Or.inl hv1
        · simp only [descendFold, if_neg h] at hv1
          rcases Finset.mem_insert.1 hv1 with rfl | hv2
          · right
            refine descendFold_queue_mono node rest ts _ _ ?_
            simp only [descendFold, if_neg h]
            exact List.mem_append_right _ (by simp)
          · exact Or.inl hv2
      · exact Or.inr hq

theorem descendFold_measure (node : Nat) (rest : List Nat) :
    ∀ (ts : List (Nat × Nat)) (acc : List (List Nat) × RState)
      (S : Finset Nat), (∀ e ∈ ts, e.1 ∈ S) →
      (List.foldl (descendFold (node :: rest)) acc ts).1.length +
          (S \ (List.foldl (descendFold (node :: rest)) acc ts).2.visited).card ≤
        acc.1.length + (S \ acc.2.visited).card
  | [], _, _, _ => le_refl _
  | e :: ts, acc, S, hS => by
      rw [List.foldl_cons]
      refine le_trans (descendFold_measure node rest ts _ S
        (fun e1 he1 => hS e1 (List.mem_cons_of_mem e he1))) ?_
      by_cases h : e.1 ∈ acc.2.visited
      · simp only [descendFold, if_pos h, aggAddShortcut_visited]
        exact le_refl _
      · simp only [descendFold, if_neg h, List.length_append,
          List.length_cons, List.length_nil]
        have he1 : e.1 ∈ S \ acc.2.visited :=
          Finset.mem_sdiff.2 ⟨hS e (List.mem_cons_self e ts), h⟩
        rw [sdiff_insert_erase, Finset.card_erase_of_mem he1]
        have hpos : 1 ≤ (S \ acc.2.visited).card :=
          Finset.card_pos.2 ⟨e.1, he1⟩
        omega

/-- The cursor fold of one delegate invocation, named for reasoning:
the inbound member triples of `node` folded over the descend-or-shortcut
choice, starting from an empty next-segment list. -/
def delegateFold (edges : List (Nat × Nat)) (node : Nat) (rest : List Nat)
    (st : RState) : List (List Nat) × RState :=
  (edges.filter (fun e => e.2 = node ∧ e.1 ≠ node)).foldl
    (descendFold (node :: rest)) ([], st)

theorem delegateStep_cons (edges : List (Nat × Nat)) (node : Nat)
    (rest : List Nat) (st : RState) :
    delegateStep edges (node :: rest) st =
      if (delegateFold edges node rest st).1 = [] then
        ([], aggAddPath (node :: rest) (delegateFold edges node rest st).2)
      else delegateFold edges node rest st := rfl

theorem delegateFold_members (edges : List (Nat × Nat)) (node : Nat)
    (rest : List Nat) (st : RState) :
    (delegateFold edges node rest st).2.members = st.members :=
  descendFold_members node rest _ ([], st)

theorem delegateFold_visited_mono (edges : List (Nat × Nat)) (node : Nat)
    (rest : List Nat) (st : RState) :
    st.visited ⊆ (delegateFold edges node rest st).2.visited :=
  descendFold_visited_mono node rest _ ([], st)

theorem delegateFold_shortcuts_mono (edges : List (Nat × Nat)) (node : Nat)
    (rest : List Nat) (st : RState) (a : Nat) :
    st.shortcuts a ⊆ (delegateFold edges node rest st).2.shortcuts a :=
  descendFold_shortcuts_mono node rest _ ([], st) a

theorem mem_filter_triples (edges : List (Nat × Nat)) (node : Nat)
    (e : Nat × Nat) :
    e ∈ edges.filter (fun e => e.2 = node ∧ e.1 ≠ node) ↔
      e ∈ edges ∧ e.2 = node ∧ e.1 ≠ node := by
  simp only [List.mem_filter, decide_eq_true_eq]

theorem delegateFold_shortcuts_sound (edges : List (Nat × Nat)) (node : Nat)
    (rest : List Nat) (st : RState) (a x : Nat)
    (hx : x ∈ (delegateFold edges node rest st).2.shortcuts a) :
    x ∈ st.shortcuts a ∨ (a = node ∧ estep edges x a) := by
  rcases descendFold_shortcuts_sound node rest _ ([], st) a x hx with
    h | ⟨ha, e, he, hxe⟩
  · exact Or.inl h
  · obtain ⟨heE, he2, he1⟩ := (mem_filter_triples edges node e).1 he
    refine Or.inr ⟨ha, ?_, ?_⟩
    · have : (x, a) = e := by
        rw [hxe, ha, ← he2]
      rw [this]
      exact heE
    · rw [hxe, ha]
      exact he1

theorem delegateFold_queue_sound (edges : List (Nat × Nat)) (node : Nat)
    (rest : List Nat) (st : RState) (C : List Nat)
    (hC : C ∈ (delegateFold edges node rest st).1) :
    ∃ s, C = s :: node :: rest ∧ estep edges s node := by
  rcases descendFold_queue_sound node rest _ ([], st) C hC with
    h | ⟨e, he, hCe⟩
  · exact absurd h (List.not_mem_nil C)
  · obtain ⟨heE, he2, he1⟩ := (mem_filter_triples edges node e).1 he
    refine ⟨e.1, hCe, ?_, he1⟩
    have : (e.1, node) = e := by
      rw [← he2]
    rw [this]
    exact heE

theorem delegateFold_handles (edges : List (Nat × Nat)) (node : Nat)
    (rest : List Nat) (st : RState) (s : Nat)
    (hs : estep edges s node) :
    s ∈ (delegateFold edges node rest st).2.visited ∧
      ((s :: node :: rest) ∈ (delegateFold edges node rest st).1 ∨
        s ∈ (delegateFold edges node rest st).2.shortcuts node) := by
  have hmem : (s, node) ∈ edges.filter (fun e => e.2 = node ∧ e.1 ≠ node) :=
    (mem_filter_triples edges node (s, node)).2 ⟨hs.1, rfl, hs.2⟩
  exact descendFold_handles node rest _ ([], st) (s, node) hmem

theorem delegateFold_visited_queued (edges : List (Nat × Nat)) (node : Nat)
    (rest : List Nat) (st : RState) (v : Nat)
    (hv : v ∈ (delegateFold edges node rest st).2.visited) :
    v ∈ st.visited ∨ (v :: node :: rest) ∈ (delegateFold edges node rest st).1 :=
  descendFold_visited_queued node rest _ ([], st) v hv

theorem delegateFold_measure (edges : List (Nat × Nat)) (node : Nat)
    (rest : List Nat) (st : RState) :
    (delegateFold edges node rest st).1.length +
        (startsE edges \ (delegateFold edges node rest st).2.visited).card ≤
      (startsE edges \ st.visited).card := by
  have h := descendFold_measure node rest
    (edges.filter (fun e => e.2 = node ∧ e.1 ≠ node)) ([], st) (startsE edges)
    (fun e he => by
      obtain ⟨heE, _, _⟩ := (mem_filter_triples edges node e).1 he
      simp only [startsE, List.mem_toFinset]
      exact List.mem_map_of_mem Prod.fst heE)
  exact le_trans h (by simp)

theorem delegateStep_stLE (edges : List (Nat × Nat)) (node : Nat)
    (rest : List Nat) (st : RState) :
    stLE st (delegateStep edges (node :: rest) st).2 := by
  rw [delegateStep_cons]
  by_cases hterm : (delegateFold edges node rest st).1 = []
  · rw [if_pos hterm]
    refine ⟨?_, ?_, ?_⟩
    · show st.visited ⊆
        (aggAddPath (node :: rest) (delegateFold edges node rest st).2).visited
      rw [aggAddPath_visited]
      exact delegateFold_visited_mono edges node rest st
    · intro a
      show st.members a ⊆
        (aggAddPath (node :: rest) (delegateFold edges node rest st).2).members a
      rw [aggAddPath_members, delegateFold_members]
      exact addPairs_mono _ _ _
    · intro a
      show st.shortcuts a ⊆
        (aggAddPath (node :: rest) (delegateFold edges node rest st).2).shortcuts a
      rw [aggAddPath_shortcuts]
      exact delegateFold_shortcuts_mono edges node rest st a
  · rw [if_neg hterm]
    refine ⟨delegateFold_visited_mono edges node rest st, ?_,
      delegateFold_shortcuts_mono edges node rest st⟩
    intro a
    rw [delegateFold_members]

theorem delegateStep_members_sound (edges : List (Nat × Nat)) (node : Nat)
    (rest : List Nat) (st : RState) (a x : Nat)
    (hx : x ∈ (delegateStep edges (node :: rest) st).2.members a) :
    x ∈ st.members a ∨ (x, a) ∈ chainPairs (node :: rest) := by
  rw [delegateStep_cons] at hx
  by_cases hterm : (delegateFold edges node rest st).1 = []
  · rw [if_pos hterm] at hx
    have hx1 : x ∈ (aggAddPath (node :: rest)
        (delegateFold edges node rest st).2).members a := hx
    rw [aggAddPath_members] at hx1
    rcases (mem_addPairs (node :: rest) _ a x).1 hx1 with h | h
    · rw [delegateFold_members] at h
      exact Or.inl h
    · exact Or.inr h
  · rw [if_neg hterm, delegateFold_members] at hx
    exact Or.inl hx

theorem delegateStep_shortcuts_sound (edges : List (Nat × Nat)) (node : Nat)
    (rest : List Nat) (st : RState) (a x : Nat)
    (hx : x ∈ (delegateStep edges (node :: rest) st).2.shortcuts a) :
    x ∈ st.shortcuts a ∨ (a = node ∧ estep edges x a) := by
  rw [delegateStep_cons] at hx
  by_cases hterm : (delegateFold edges node rest st).1 = []
  · rw [if_pos hterm] at hx
    have hx1 : x ∈ (aggAddPath (node :: rest)
        (delegateFold edges node rest st).2).shortcuts a := hx
    rw [aggAddPath_shortcuts] at hx1
    exact delegateFold_shortcuts_sound edges node rest st a x hx1
  · rw [if_neg hterm] at hx
    exact delegateFold_shortcuts_sound edges node rest st a x hx

theorem delegateStep_terminal_path (edges : List (Nat × Nat)) (node : Nat)
    (rest : List Nat) (st : RState)
    (hterm : (delegateStep edges (node :: rest) st).1 = []) :
    ∀ p ∈ chainPairs (node :: rest),
      p.1 ∈ (delegateStep edges (node :: rest) st).2.members p.2 := by
  intro p hp
  rw [delegateStep_cons]
  by_cases hfold : (delegateFold edges node rest st).1 = []
  · rw [if_pos hfold]
    show p.1 ∈ (aggAddPath (node :: rest)
      (delegateFold edges node rest st).2).members p.2
    rw [aggAddPath_members]
    exact (mem_addPairs (node :: rest) _ p.2 p.1).2 (Or.inr (by
      rw [Prod.mk.eta]
      exact hp))
  · exfalso
    rw [delegateStep_cons, if_neg hfold] at hterm
    exact hfold hterm

theorem delegateStep_handles (edges : List (Nat × Nat)) (node : Nat)
    (rest : List Nat) (st : RState) (s : Nat) (hs : estep edges s node) :
    s ∈ (delegateStep edges (node :: rest) st).2.visited ∧
      ((s :: node :: rest) ∈ (delegateStep edges (node :: rest) st).1 ∨
        s ∈ (delegateStep edges (node :: rest) st).2.shortcuts node) := by
  obtain ⟨hvis, hdisj⟩ := delegateFold_handles edges node rest st s hs
  rw [delegateStep_cons]
  by_cases hterm : (delegateFold edges node rest st).1 = []
  · rw [if_pos hterm]
    rcases hdisj with hq | hsc
    · rw [hterm] at hq
      exact absurd hq (List.not_mem_nil _)
    · constructor
      · show s ∈ (aggAddPath (node :: rest)
          (delegateFold edges node rest st).2).visited
        rw [aggAddPath_visited]
        exact hvis
      · right
        show s ∈ (aggAddPath (node :: rest)
          (delegateFold edges node rest st).2).shortcuts node
        rw [aggAddPath_shortcuts]
        exact hsc
  · rw [if_neg hterm]
    exact ⟨hvis, hdisj⟩

theorem delegateStep_queue_sound (edges : List (Nat × Nat)) (node : Nat)
    (rest : List Nat) (st : RState) (C : List Nat)
    (hC : C ∈ (delegateStep edges (node :: rest) st).1) :
    ∃ s, C = s :: node :: rest ∧ estep edges s node := by
  rw [delegateStep_cons] at hC
  by_cases hterm : (delegateFold edges node rest st).1 = []
  · rw [if_pos hterm] at hC
    exact absurd hC (List.not_mem_nil C)
  · rw [if_neg hterm] at hC
    exact delegateFold_queue_sound edges node rest st C hC

theorem delegateStep_visited_sound (edges : List (Nat × Nat)) (node : Nat)
    (rest : List Nat) (st : RState) (v : Nat)
    (hv : v ∈ (delegateStep edges (node :: rest) st).2.visited) :
    v ∈ st.visited ∨
      (v :: node :: rest) ∈ (delegateStep edges (node :: rest) st).1 := by
  rw [delegateStep_cons] at hv ⊢
  by_cases hterm : (delegateFold edges node rest st).1 = []
  · rw [if_pos hterm] at hv ⊢
    have hv1 : v ∈ (aggAddPath (node :: rest)
        (delegateFold edges node rest st).2).visited := hv
    rw [aggAddPath_visited] at hv1
    rcases delegateFold_visited_queued edges node rest st v hv1 with h | h
    · exact Or.inl h
    · rw [hterm] at h
      exact absurd h (List.not_mem_nil _)
  · rw [if_neg hterm] at hv ⊢
    exact delegateFold_visited_queued edges node rest st v hv

theorem delegateStep_measure (edges : List (Nat × Nat)) (node : Nat)
    (rest : List Nat) (st : RState) :
    (delegateStep edges (node :: rest) st).1.length +
        (startsE edges \ (delegateStep edges (node :: rest) st).2.visited).card ≤
      (startsE edges \ st.visited).card := by
  rw [delegateStep_cons]
  by_cases hterm : (delegateFold edges node rest st).1 = []
  · rw [if_pos hterm]
    have h := delegateFold_measure edges node rest st
    have hv : (aggAddPath (node :: rest)
        (delegateFold edges node rest st).2).visited =
        (delegateFold edges node rest st).2.visited := aggAddPath_visited _ _
    simp only [List.length_nil, hv]
    omega
  · rw [if_neg hterm]
    exact delegateFold_measure edges node rest st

/-- A node is explored when every inbound member edge into it has been
seen: the member is in the visited bitmap and recorded, directly or as
a shortcut, on the node. -/
def explored (edges : List (Nat × Nat)) (st : RState) (v : Nat) : Prop :=
  ∀ s, estep edges s v → s ∈ st.visited ∧ s ∈ madj st v

theorem explored_mono {edges : List (Nat × Nat)} {st st1 : RState} {v : Nat}
    (h : stLE st st1) (hx : explored edges st v) : explored edges st1 v := by
  intro s hs
  obtain ⟨h1, h2⟩ := hx s hs
  refine ⟨h.1 h1, ?_⟩
  rcases Finset.mem_union.1 h2 with h3 | h3
  · exact Finset.mem_union_left _ (h.2.1 v h3)
  · exact Finset.mem_union_right _ (h.2.2 v h3)

theorem runQueue_master (edges : List (Nat × Nat)) :
    ∀ (fuel : Nat) (Q : List (List Nat)) (st st1 : RState),
      runQueue edges fuel Q st = some st1 →
      (∀ C ∈ Q, ∃ node rest, C = node :: rest) →
      stLE st st1 ∧
        (∀ C ∈ Q, ∀ p ∈ chainPairs C, p.1 ∈ st1.members p.2) ∧
        (∀ C ∈ Q, ∀ node rest, C = node :: rest → explored edges st1 node) ∧
        (∀ v ∈ st1.visited, v ∈ st.visited ∨ explored edges st1 v)
  | 0, Q, st, st1, h, _ => Option.noConfusion h
  | fuel + 1, [], st, st1, h, _ => by
      have h1 : some st = some st1 := h
      have h2 := Option.some.inj h1
      subst h2
      exact ⟨stLE_refl st, by simp, by simp, fun v hv => Or.inl hv⟩
  | fuel + 1, C :: Q, st, st1, h, hne => by
      obtain ⟨node, rest, rfl⟩ := hne _ (List.mem_cons_self C Q)
      rw [runQueue_cons] at h
      have hshape : ∀ D ∈ Q ++ (delegateStep edges (node :: rest) st).1,
          ∃ n r, D = n :: r := by
        intro D hD
        rcases List.mem_append.1 hD with h1 | h1
        · exact hne D (List.mem_cons_of_mem _ h1)
        · obtain ⟨s, hDs, _⟩ :=
            delegateStep_queue_sound edges node rest st D h1
          exact ⟨s, node :: rest, hDs⟩
      obtain ⟨ih1, ih2, ih3, ih4⟩ :=
        runQueue_master edges fuel (Q ++ (delegateStep edges (node :: rest) st).1)
          (delegateStep edges (node :: rest) st).2 st1 h hshape
      refine ⟨stLE_trans (delegateStep_stLE edges node rest st) ih1, ?_, ?_, ?_⟩
      · intro D hD p hp
        rcases List.mem_cons.1 hD with rfl | hD1
        · by_cases hterm : (delegateStep edges (node :: rest) st).1 = []
          · have hrec := delegateStep_terminal_path edges node rest st hterm p hp
            have : (delegateStep edges (node :: rest) st).2.members p.2 ⊆
                st1.members p.2 := ih1.2.1 p.2
            exact this hrec
          · obtain ⟨D1, hD1⟩ := List.exists_mem_of_ne_nil _ hterm
            obtain ⟨s, rfl, _⟩ :=
              delegateStep_queue_sound edges node rest st D1 hD1
            refine ih2 (s :: node :: rest)
              (List.mem_append_right _ hD1) p ?_
            rw [chainPairs_cons]
            exact List.mem_cons_of_mem _ hp
        · exact ih2 D (List.mem_append_left _ hD1) p hp
      · intro D hD n r hDeq
        rcases List.mem_cons.1 hD with rfl | hD1
        · have hn : n = node := by
            injection hDeq with h1 h2
            exact h1.symm
          rw [hn]
          intro s hs
          obtain ⟨hvis, hdisj⟩ := delegateStep_handles edges node rest st s hs
          refine ⟨ih1.1 hvis, ?_⟩
          rcases hdisj with hq | hsc
          · have hmem := ih2 (s :: node :: rest)
              (List.mem_append_right _ hq) (s, node) (by
                rw [chainPairs_cons]
                exact List.mem_cons_self _ _)
            exact Finset.mem_union_left _ hmem
          · exact Finset.mem_union_right _ (ih1.2.2 node hsc)
        · exact ih3 D (List.mem_append_left _ hD1) n r hDeq
      · intro v hv
        rcases ih4 v hv with hv1 | hexp
        · rcases delegateStep_visited_sound edges node rest st v hv1 with
            h1 | h1
          · exact Or.inl h1
          · exact Or.inr (ih3 (v :: node :: rest)
              (List.mem_append_right _ h1) v (node :: rest) rfl)
        · exact Or.inr hexp

theorem runQueue_sound (edges : List (Nat × Nat)) :
    ∀ (fuel : Nat) (Q : List (List Nat)) (st st1 : RState),
      runQueue edges fuel Q st = some st1 →
      (∀ C ∈ Q, ∃ node rest, C = node :: rest) →
      (∀ a x, x ∈ st.members a → estep edges x a) →
      (∀ a x, x ∈ st.shortcuts a → estep edges x a) →
      (∀ C ∈ Q, List.Chain' (estep edges) C) →
      (∀ a x, x ∈ st1.members a → estep edges x a) ∧
        (∀ a x, x ∈ st1.shortcuts a → estep edges x a)
  | 0, Q, st, st1, h, _, _, _, _ => Option.noConfusion h
  | fuel + 1, [], st, st1, h, _, hM, hS, _ => by
      have h1 : some st = some st1 := h
      have h2 := Option.some.inj h1
      subst h2
      exact ⟨hM, hS⟩
  | fuel + 1, C :: Q, st, st1, h, hne, hM, hS, hCh => by
      obtain ⟨node, rest, rfl⟩ := hne _ (List.mem_cons_self C Q)
      rw [runQueue_cons] at h
      refine runQueue_sound edges fuel
        (Q ++ (delegateStep edges (node :: rest) st).1)
        (delegateStep edges (node :: rest) st).2 st1 h ?_ ?_ ?_ ?_
      · intro D hD
        rcases List.mem_append.1 hD with h1 | h1
        · exact hne D (List.mem_cons_of_mem _ h1)
        · obtain ⟨s, hDs, _⟩ :=
            delegateStep_queue_sound edges node rest st D h1
          exact ⟨s, node :: rest, hDs⟩
      · intro a x hx
        rcases delegateStep_members_sound edges node rest st a x hx with
          h1 | h1
        · exact hM a x h1
        · exact chainPairs_of_chain
            (hCh (node :: rest) (List.mem_cons_self _ _)) (x, a) h1
      · intro a x hx
        rcases delegateStep_shortcuts_sound edges node rest st a x hx with
          h1 | ⟨_, h2⟩
        · exact hS a x h1
        · exact h2
      · intro D hD
        rcases List.mem_append.1 hD with h1 | h1
        · exact hCh D (List.mem_cons_of_mem _ h1)
        · obtain ⟨s, rfl, hs⟩ :=
            delegateStep_queue_sound edges node rest st D h1
          exact List.chain'_cons.2
            ⟨hs, hCh (node :: rest) (List.mem_cons_self _ _)⟩

theorem runQueue_total (edges : List (Nat × Nat)) :
    ∀ (fuel : Nat) (Q : List (List Nat)) (st : RState),
      (∀ C ∈ Q, ∃ node rest, C = node :: rest) →
      Q.length + (startsE edges \ st.visited).card < fuel →
      ∃ st1, runQueue edges fuel Q st = some st1
  | 0, Q, st, _, hlt => absurd hlt (by omega)
  | fuel + 1, [], st, _, _ => ⟨st, runQueue_nil edges fuel st⟩
  | fuel + 1, C :: Q, st, hne, hlt => by
      obtain ⟨node, rest, rfl⟩ := hne _ (List.mem_cons_self C Q)
      have hmeas := delegateStep_measure edges node rest st
      have hlt1 : (Q ++ (delegateStep edges (node :: rest) st).1).length +
          (startsE edges \
            (delegateStep edges (node :: rest) st).2.visited).card < fuel := by
        rw [List.length_append]
        rw [List.length_cons] at hlt
        omega
      obtain ⟨st1, h1⟩ := runQueue_total edges fuel
        (Q ++ (delegateStep edges (node :: rest) st).1)
        (delegateStep edges (node :: rest) st).2
        (by
          intro D hD
          rcases List.mem_append.1 hD with h1 | h1
          · exact hne D (List.mem_cons_of_mem _ h1)
          · obtain ⟨s, hDs, _⟩ :=
              delegateStep_queue_sound edges node rest st D h1
            exact ⟨s, node :: rest, hDs⟩) hlt1
      exact ⟨st1, by rw [runQueue_cons]; exact h1⟩

theorem runRoots_master (edges : List (Nat × Nat)) (fuel : Nat) :
    ∀ (gs : List Nat) (st st1 : RState),
      runRoots edges fuel gs st = some st1 →
      stLE st st1 ∧
        (∀ v ∈ st1.visited, v ∈ st.visited ∨ explored edges st1 v) ∧
        (∀ g ∈ gs, g ∈ st1.visited ∨ explored edges st1 g)
  | [], st, st1, h => by
      have h1 : some st = some st1 := h
      have h2 := Option.some.inj h1
      subst h2
      exact ⟨stLE_refl st, fun v hv => Or.inl hv, by simp⟩
  | g :: gs, st, st1, h => by
      by_cases hg : g ∈ st.visited
      · rw [runRoots_cons_mem edges fuel g gs st hg] at h
        obtain ⟨i1, i2, i3⟩ := runRoots_master edges fuel gs st st1 h
        refine ⟨i1, i2, ?_⟩
        intro g1 hg1
        rcases List.mem_cons.1 hg1 with rfl | hg2
        · exact Or.inl (i1.1 hg)
        · exact i3 g1 hg2
      · rw [runRoots_cons, if_neg hg] at h
        rcases hq : runQueue edges fuel [[g]] st with _ | stm
        · rw [hq] at h
          exact Option.noConfusion h
        · rw [hq] at h
          obtain ⟨q1, q2, q3, q4⟩ := runQueue_master edges fuel [[g]] st stm hq
            (by
              intro C hC
              rw [List.mem_singleton.1 hC]
              exact ⟨g, [], rfl⟩)
          obtain ⟨i1, i2, i3⟩ := runRoots_master edges fuel gs stm st1 h
          refine ⟨stLE_trans q1 i1, ?_, ?_⟩
          · intro v hv
            rcases i2 v hv with hv1 | hexp
            · rcases q4 v hv1 with h1 | h1
              · exact Or.inl h1
              · exact Or.inr (explored_mono i1 h1)
            · exact Or.inr hexp
          · intro g1 hg1
            rcases List.mem_cons.1 hg1 with rfl | hg2
            · exact Or.inr (explored_mono i1
                (q3 [g1] (List.mem_singleton_self _) g1 [] rfl))
            · exact i3 g1 hg2

theorem runRoots_sound (edges : List (Nat × Nat)) (fuel : Nat) :
    ∀ (gs : List Nat) (st st1 : RState),
      runRoots edges fuel gs st = some st1 →
      (∀ a x, x ∈ st.members a → estep edges x a) →
      (∀ a x, x ∈ st.shortcuts a → estep edges x a) →
      (∀ a x, x ∈ st1.members a → estep edges x a) ∧
        (∀ a x, x ∈ st1.shortcuts a → estep edges x a)
  | [], st, st1, h, hM, hS => by
      have h1 : some st = some st1 := h
      have h2 := Option.some.inj h1
      subst h2
      exact ⟨hM, hS⟩
  | g :: gs, st, st1, h, hM, hS => by
      by_cases hg : g ∈ st.visited
      · rw [runRoots_cons_mem edges fuel g gs st hg] at h
        exact runRoots_sound edges fuel gs st st1 h hM hS
      · rw [runRoots_cons, if_neg hg] at h
        rcases hq : runQueue edges fuel [[g]] st with _ | stm
        · rw [hq] at h
          exact Option.noConfusion h
        · rw [hq] at h
          obtain ⟨hM1, hS1⟩ := runQueue_sound edges fuel [[g]] st stm hq
            (by
              intro C hC
              rw [List.mem_singleton.1 hC]
              exact ⟨g, [], rfl⟩) hM hS
            (by
              intro C hC
              rw [List.mem_singleton.1 hC]
              exact List.chain'_singleton g)
          exact runRoots_sound edges fuel gs stm st1 h hM1 hS1

theorem runRoots_total (edges : List (Nat × Nat)) (fuel : Nat) :
    ∀ (gs : List Nat) (st : RState),
      1 + (startsE edges \ st.visited).card < fuel →
      ∃ st1, runRoots edges fuel gs st = some st1
  | [], st, _ => ⟨st, runRoots_nil edges fuel st⟩
  | g :: gs, st, hlt => by
      by_cases hg : g ∈ st.visited
      · obtain ⟨st1, h1⟩ := runRoots_total edges fuel gs st hlt
        exact ⟨st1, by rw [runRoots_cons_mem edges fuel g gs st hg]; exact h1⟩
      · obtain ⟨stm, hq⟩ := runQueue_total edges fuel [[g]] st
          (by
            intro C hC
            rw [List.mem_singleton.1 hC]
            exact ⟨g, [], rfl⟩)
          (by
            rw [List.length_singleton]
            exact hlt)
        have hle : (startsE edges \ stm.visited).card ≤
            (startsE edges \ st.visited).card := by
          refine Finset.card_le_card (Finset.sdiff_subset_sdiff subset_rfl ?_)
          exact (runQueue_master edges fuel [[g]] st stm hq
            (by
              intro C hC
              rw [List.mem_singleton.1 hC]
              exact ⟨g, [], rfl⟩)).1.1
        obtain ⟨st1, h1⟩ := runRoots_total edges fuel gs stm (by omega)
        exact ⟨st1, by
          rw [runRoots_cons_notmem edges fuel g gs st stm hg hq]
          exact h1⟩

/-- Termination of the embedded resolver: (number of start nodes) + 1
segments of fuel suffice. -/
theorem resolveAll_total (edges : List (Nat × Nat)) (groups : List Nat)
    (fuel : Nat) (h : (startsE edges).card + 1 < fuel) :
    (resolveAllGroupMemberships edges groups fuel).isSome = true := by
  obtain ⟨st1, h1⟩ := runRoots_total edges fuel groups ⟨∅, fun _ => ∅, fun _ => ∅⟩
    (by
      show 1 + ((startsE edges) \ (∅ : Finset Nat)).card < fuel
      rw [Finset.sdiff_empty]
      omega)
  rw [resolveAllGroupMemberships, h1]
  rfl

/-- The facts a completed resolver run guarantees: every visited node
and every requested group is fully explored, and everything the
aggregator recorded is a real member edge. -/
theorem resolveAll_facts (edges : List (Nat × Nat)) (groups : List Nat)
    (fuel : Nat) (st : RState)
    (h : resolveAllGroupMemberships edges groups fuel = some st) :
    (∀ v ∈ st.visited, explored edges st v) ∧
      (∀ g ∈ groups, explored edges st g) ∧
      (∀ a x, x ∈ madj st a → estep edges x a) := by
  obtain ⟨m1, m2, m3⟩ := runRoots_master edges fuel groups
    ⟨∅, fun _ => ∅, fun _ => ∅⟩ st h
  obtain ⟨s1, s2⟩ := runRoots_sound edges fuel groups
    ⟨∅, fun _ => ∅, fun _ => ∅⟩ st h
    (by
      intro a x hx
      exact absurd hx (Finset.not_mem_empty x))
    (by
      intro a x hx
      exact absurd hx (Finset.not_mem_empty x))
  have hvis : ∀ v ∈ st.visited, explored edges st v := by
    intro v hv
    rcases m2 v hv with h1 | h1
    · exact absurd h1 (Finset.not_mem_empty v)
    · exact h1
  refine ⟨hvis, ?_, ?_⟩
  · intro g hg
    rcases m3 g hg with h1 | h1
    · exact hvis g h1
    · exact h1
  · intro a x hx
    rcases Finset.mem_union.1 hx with h1 | h1
    · exact s1 a x h1
    · exact s2 a x h1

theorem reachIter_eq_iterate (adj : Nat → Finset Nat) :
    ∀ (n : Nat) (s : Finset Nat), reachIter adj n s = (reachStep adj)^[n] s
  | 0, _ => rfl
  | n + 1, s => by
      rw [reachIter, reachIter_eq_iterate adj n, Function.iterate_succ_apply]

theorem reachStep_subset (adj : Nat → Finset Nat) (s : Finset Nat) :
    s ⊆ reachStep adj s :=
  Finset.subset_union_left

theorem subset_iterate (f : Finset Nat → Finset Nat)
    (hf : ∀ s, s ⊆ f s) (s : Finset Nat) : ∀ n, s ⊆ f^[n] s
  | 0 => subset_rfl
  | n + 1 => by
      rw [Function.iterate_succ_apply']
      exact subset_trans (subset_iterate f hf s n) (hf _)

theorem iterate_growth (f : Finset Nat → Finset Nat)
    (hf : ∀ s, s ⊆ f s) (s0 : Finset Nat) :
    ∀ m, (∀ k < m, f^[k + 1] s0 ≠ f^[k] s0) →
      m + s0.card ≤ (f^[m] s0).card
  | 0, _ => by
      rw [Function.iterate_zero_apply]
      omega
  | m + 1, hgrow => by
      have ih := iterate_growth f hf s0 m
        (fun k hk => hgrow k (Nat.lt_succ_of_lt hk))
      have hss : f^[m] s0 ⊂ f^[m + 1] s0 := by
        rw [Finset.ssubset_iff_subset_ne]
        refine ⟨?_, ?_⟩
        · rw [Function.iterate_succ_apply']
          exact hf _
        · exact (hgrow m (Nat.lt_succ_self m)).symm
      have hcard := Finset.card_lt_card hss
      omega

theorem iterate_in_bound (f : Finset Nat → Finset Nat) (U : Finset Nat)
    (hU : ∀ s, s ⊆ U → f s ⊆ U) (s0 : Finset Nat) (hs0 : s0 ⊆ U) :
    ∀ n, f^[n] s0 ⊆ U
  | 0 => hs0
  | n + 1 => by
      rw [Function.iterate_succ_apply']
      exact hU _ (iterate_in_bound f U hU s0 hs0 n)

theorem iterate_fix_exists (f : Finset Nat → Finset Nat)
    (hf : ∀ s, s ⊆ f s) (U : Finset Nat) (hU : ∀ s, s ⊆ U → f s ⊆ U)
    (s0 : Finset Nat) (hs0 : s0 ⊆ U) :
    ∃ k ≤ U.card, f (f^[k] s0) = f^[k] s0 := by
  by_contra hcon
  push_neg at hcon
  have hgrow : ∀ k < U.card + 1, f^[k + 1] s0 ≠ f^[k] s0 := by
    intro k hk
    rw [Function.iterate_succ_apply']
    exact hcon k (Nat.lt_succ_iff.1 hk)
  have h1 := iterate_growth f hf s0 (U.card + 1) hgrow
  have h2 : (f^[U.card + 1] s0).card ≤ U.card :=
    Finset.card_le_card (iterate_in_bound f U hU s0 hs0 (U.card + 1))
  omega

theorem iterate_fix_at (f : Finset Nat → Finset Nat)
    (hf : ∀ s, s ⊆ f s) (U : Finset Nat) (hU : ∀ s, s ⊆ U → f s ⊆ U)
    (s0 : Finset Nat) (hs0 : s0 ⊆ U) (n : Nat) (hn : U.card ≤ n) :
    f (f^[n] s0) = f^[n] s0 := by
  obtain ⟨k, hk, hfix⟩ := iterate_fix_exists f hf U hU s0 hs0
  obtain ⟨d, rfl⟩ := Nat.exists_eq_add_of_le (hk.trans hn)
  have h1 : f^[k + d] s0 = f^[k] s0 := by
    rw [Nat.add_comm, Function.iterate_add_apply]
    exact Function.iterate_fixed hfix d
  rw [h1, hfix]

theorem reach_sound (edges : List (Nat × Nat)) (adj : Nat → Finset Nat)
    (hadj : ∀ a x, x ∈ adj a → estep edges x a) (g : Nat) :
    ∀ (n : Nat) (S : Finset Nat),
      (∀ y ∈ S, y = g ∨ Relation.TransGen (estep edges) y g) →
      ∀ x ∈ reachIter adj n S,
        x = g ∨ Relation.TransGen (estep edges) x g
  | 0, _, hS, x, hx => hS x hx
  | n + 1, S, hS, x, hx => by
      rw [reachIter] at hx
      refine reach_sound edges adj hadj g n _ ?_ x hx
      intro y hy
      rcases Finset.mem_union.1 hy with h1 | h1
      · exact hS y h1
      · obtain ⟨a, ha, hya⟩ := Finset.mem_biUnion.1 h1
        have hstep := hadj a y hya
        rcases hS a ha with rfl | htrans
        · exact Or.inr (Relation.TransGen.single hstep)
        · exact Or.inr (Relation.TransGen.head hstep htrans)

theorem reach_complete_closed (adj : Nat → Finset Nat) (T : Finset Nat)
    (hcl : reachStep adj T = T) :
    ∀ x y, Relation.TransGen (fun u v => u ∈ adj v) x y → y ∈ T → x ∈ T := by
  have hstep : ∀ v ∈ T, ∀ u ∈ adj v, u ∈ T := by
    intro v hv u hu
    rw [← hcl]
    exact Finset.mem_union_right _ (Finset.mem_biUnion.2 ⟨v, hv, hu⟩)
  intro x y hxy
  induction hxy with
  | single h => exact fun hy => hstep _ hy _ h
  | tail h1 h2 ih => exact fun hy => ih (hstep _ hy _ h2)

theorem explored_path (edges : List (Nat × Nat)) (st : RState)
    (hvis : ∀ v ∈ st.visited, explored edges st v) (x g : Nat)
    (hxg : Relation.TransGen (estep edges) x g) :
    explored edges st g →
      Relation.TransGen (fun u v => u ∈ madj st v) x g := by
  induction hxg with
  | single h =>
      intro hg
      exact Relation.TransGen.single ((hg _ h).2)
  | tail h1 h2 ih =>
      intro hg
      have hb := hg _ h2
      exact Relation.TransGen.tail (ih (hvis _ hb.1)) hb.2

/-- C6: the mixed AddPath/AddShortcut strategy refines pure AddPath
resolution.  First conjunct (termination): with fuel exceeding the
number of distinct member-edge start nodes plus one, the embedded
`ResolveAllGroupMemberships` run completes.  Second conjunct: for every
group `g` the run was asked to resolve, the Reachability Set
`Cardinality` resolves for `g` — with at least
`card (insert g (startsE edges))` resolution rounds, enough to reach
the closure fixpoint — equals `specAddPathMembership edges g`, the
reference set following the spec's words for pure `AddPath` chains:
exactly the nodes with a membership path into `g`, `g` itself excluded.
The per-edge choice the visited bitmap makes between descending with a
full `AddPath` chain and recording an `AddShortcut` on an
already-visited node therefore never changes a group's final
Reachability Set. -/
theorem resolveAll_computes_specAddPathMembership :
    (∀ (edges : List (Nat × Nat)) (groups : List Nat) (fuel : Nat),
      (startsE edges).card + 1 < fuel →
      (resolveAllGroupMemberships edges groups fuel).isSome = true) ∧
    (∀ (edges : List (Nat × Nat)) (groups : List Nat) (fuel n : Nat)
      (st : RState) (g : Nat),
      resolveAllGroupMemberships edges groups fuel = some st →
      g ∈ groups → (insert g (startsE edges)).card ≤ n →
      ∀ x, x ∈ aggCardinality st n g ↔ x ∈ specAddPathMembership edges g) := by
  constructor
  · intro edges groups fuel h
    exact resolveAll_total edges groups fuel h
  · intro edges groups fuel n st g hrun hg hn x
    obtain ⟨hvis, hgroups, hadj⟩ := resolveAll_facts edges groups fuel st hrun
    have hgexp := hgroups g hg
    have hf : ∀ s, s ⊆ reachStep (madj st) s := reachStep_subset (madj st)
    have hU : ∀ s, s ⊆ insert g (startsE edges) →
        reachStep (madj st) s ⊆ insert g (startsE edges) := by
      intro s hs y hy
      rcases Finset.mem_union.1 hy with h1 | h1
      · exact hs h1
      · obtain ⟨a, _, hya⟩ := Finset.mem_biUnion.1 h1
        have hstep := hadj a y hya
        refine Finset.mem_insert_of_mem ?_
        simp only [startsE, List.mem_toFinset]
        exact List.mem_map_of_mem Prod.fst hstep.1
    have hs0 : ({g} : Finset Nat) ⊆ insert g (startsE edges) := by
      intro y hy
      rw [Finset.mem_singleton.1 hy]
      exact Finset.mem_insert_self g _
    constructor
    · intro hx
      obtain ⟨hxg, hxr⟩ := Finset.mem_erase.1 hx
      rcases reach_sound edges (madj st) hadj g n {g}
        (fun y hy => Or.inl (Finset.mem_singleton.1 hy)) x hxr with h1 | h1
      · exact absurd h1 hxg
      · exact ⟨h1, hxg⟩
    · intro hx
      obtain ⟨htg, hxg⟩ := hx
      have hm := explored_path edges st hvis x g htg hgexp
      have hfix : reachStep (madj st) ((reachStep (madj st))^[n] {g}) =
          (reachStep (madj st))^[n] {g} :=
        iterate_fix_at (reachStep (madj st)) hf (insert g (startsE edges)) hU
          {g} hs0 n hn
      have hgT : g ∈ (reachStep (madj st))^[n] {g} :=
        subset_iterate (reachStep (madj st)) hf {g} n
          (Finset.mem_singleton_self g)
      have hxT := reach_complete_closed (madj st) _ hfix x g hm hgT
      refine Finset.mem_erase.2 ⟨hxg, ?_⟩
      show x ∈ reachIter (madj st) n {g}
      rw [reachIter_eq_iterate]
      exact hxT

end BloodHound